import Mathlib

/-!
Verification of the version reconciliation engine in
`scripts/version_status.py` (shallow embedding).

The embedding models:
  * `normalize_version` (lines 124-139), with the regex pipeline spelled
    out over `List Char` (ASCII scope: Python's `\d`, `\s` and `lower()`
    are modelled by their ASCII restrictions);
  * `compare_versions` (lines 142-163), including a faithful model of the
    third-party `packaging.version.Version` class (PEP 440 parsing and
    comparison key), since the script imports it unconditionally and the
    digit-run fallback only runs when `Version(...)` raises;
  * `resolve_latest` (lines 183-200), fuelled to make the recursion on the
    alias graph total: a `none` result of the fuelled function for every
    fuel models divergence of the Python recursion;
  * the row-building loop of `main` (lines 209-227), with the external
    GitHub fetch an injected oracle `fetch : String → Option String` and a
    log of the repositories fetched.

Python `int(...)` on a digit run is modelled as total (`Nat`), and dict
iteration order as list order.
-/

/-! ## Character helpers (ASCII models of Python `str` predicates) -/

/-- ASCII model of Python whitespace, the class that `str.strip()` and the
regex class matched by the anchors of `packaging`'s pattern remove. -/
def isWS (c : Char) : Bool :=
  c = ' ' || c = '\t' || c = '\n' || c = '\r' || c = '\x0b' || c = '\x0c'

/-- The substitution performed by `tag.replace("_", ".")`. -/
def uCh (c : Char) : Char := if c = '_' then '.' else c

/-- Value of a decimal digit character. -/
def digitVal (c : Char) : Nat := c.toNat - 48

/-- Python `str.lstrip()` (ASCII whitespace). -/
def trimL (cs : List Char) : List Char := cs.dropWhile isWS

/-- Python `str.rstrip()` (ASCII whitespace). -/
def trimR (cs : List Char) : List Char := (trimL cs.reverse).reverse

/-- Python `str.strip()` (ASCII whitespace). -/
def pyStrip (cs : List Char) : List Char := trimR (trimL cs)

/-- Split off the maximal leading run of decimal digits. -/
def takeDigits : List Char → List Char × List Char
  | [] => ([], [])
  | c :: cs =>
    if c.isDigit then
      let p := takeDigits cs
      (c :: p.1, p.2)
    else ([], c :: cs)

/-- Python `int` on a digit string (base 10, total on `Nat`). -/
def natOfDigits (ds : List Char) : Nat :=
  ds.foldl (fun n c => n * 10 + digitVal c) 0

/-- Auxiliary scanner for `digitRuns`: `acc` is the value of the digit run
currently being read, if any. -/
def digitRunsGo : List Char → Option Nat → List Nat
  | [], none => []
  | [], some n => [n]
  | c :: cs, acc =>
    if c.isDigit then
      digitRunsGo cs (some ((acc.getD 0) * 10 + digitVal c))
    else
      match acc with
      | some n => n :: digitRunsGo cs none
      | none => digitRunsGo cs none

/-- Model of `[int(part) for part in re.findall(r"\d+", ver)]`: the maximal
runs of decimal digits of a string, read as numbers. -/
def digitRuns (cs : List Char) : List Nat := digitRunsGo cs none

/-- Python `<` on lists of integers (lexicographic, shorter prefix is
smaller). -/
def listLtNat : List Nat → List Nat → Bool
  | [], [] => false
  | [], _ :: _ => true
  | _ :: _, [] => false
  | a :: as, b :: bs => if a < b then true else if b < a then false else listLtNat as bs

/-- Truthiness of a Python `Optional[str]`: `None` and `""` are falsey. -/
def truthyS : Option String → Bool
  | none => false
  | some s => !(s == "")

/-! ## `normalize_version` (version_status.py lines 124-139) -/

/-- Model of `re.sub(r"^(REL[_-])", "", tag, flags=re.IGNORECASE)`: the
anchored pattern matches at most once, removing a leading `REL_`/`REL-`
marker case-insensitively. -/
def subREL : List Char → List Char
  | r :: e :: l :: s :: rest =>
    if r.toLower = 'r' && e.toLower = 'e' && l.toLower = 'l' && (s = '_' || s = '-') then rest
    else r :: e :: l :: s :: rest
  | cs => cs

/-- Model of `re.sub(r"^(VER[_-])", "", tag, flags=re.IGNORECASE)`. -/
def subVER : List Char → List Char
  | v :: e :: r :: s :: rest =>
    if v.toLower = 'v' && e.toLower = 'e' && r.toLower = 'r' && (s = '_' || s = '-') then rest
    else v :: e :: r :: s :: rest
  | cs => cs

/-- Model of `tag.lstrip("vV")`: drops every leading `v` or `V`. -/
def lstripVV (cs : List Char) : List Char :=
  cs.dropWhile (fun c => c = 'v' || c = 'V')

/-- The normalization pipeline of `normalize_version` after the optional
pattern extraction (lines 133-138): strip, drop a `REL_`/`REL-` marker,
drop a `VER_`/`VER-` marker, drop all leading `v`/`V`, turn underscores
into periods, strip again. -/
def normCore (cs : List Char) : List Char :=
  pyStrip (List.map uCh (lstripVV (subVER (subREL (pyStrip cs)))))

/-- Model of `return tag or None` after the pipeline. -/
def normFinish (cs : List Char) : Option String :=
  let r := normCore cs
  if r.isEmpty then none else some (String.mk r)

/-- Model of `normalize_version(tag, pattern)`.  A pattern is modelled as
the matcher of its regex: the function returning the text of capturing
group 1 of the leftmost match, if any. -/
def normalize_version (tag : String) (pat : Option (List Char → Option (List Char))) :
    Option String :=
  if tag == "" then none
  else
    match pat with
    | some p =>
      match p tag.toList with
      | some g => normFinish g
      | none => none
    | none => normFinish tag.toList

/-! ### The concrete pattern `(?:ver[_-])?([0-9_.]+)` used by the spec
(and, with `(?i)`, by the `pg_repack` catalog entry) -/

/-- Character class `[0-9_.]`. -/
def isVClass (c : Char) : Bool := c.isDigit || c = '_' || c = '.'

/-- Maximal leading run of `[0-9_.]` characters. -/
def takeVClass : List Char → List Char × List Char
  | [] => ([], [])
  | c :: cs =>
    if isVClass c then
      let p := takeVClass cs
      (c :: p.1, p.2)
    else ([], c :: cs)

/-- One attempt of `(?:ver[_-])?([0-9_.]+)` at a fixed position: the
optional `ver[_-]` prefix is tried greedily first, then the bare class
run, mirroring the regex engine's preference order. -/
def verPatTryAt (ci : Bool) (cs : List Char) : Option (List Char) :=
  let eq1 : Char → Char → Bool := fun c d => if ci then c.toLower = d else c = d
  let withVer : Option (List Char) :=
    match cs with
    | v :: e :: r :: s :: rest =>
      if eq1 v 'v' && eq1 e 'e' && eq1 r 'r' && (s = '_' || s = '-') then
        let p := takeVClass rest
        if p.1.isEmpty then none else some p.1
      else none
    | _ => none
  match withVer with
  | some g => some g
  | none =>
    let p := takeVClass cs
    if p.1.isEmpty then none else some p.1

/-- Model of `re.search` for `(?:ver[_-])?([0-9_.]+)`: leftmost position
wins.  `ci` selects the `(?i)` variant. -/
def verPatSearch (ci : Bool) : List Char → Option (List Char)
  | [] => none
  | c :: cs =>
    match verPatTryAt ci (c :: cs) with
    | some g => some g
    | none => verPatSearch ci cs

/-! ## Model of `packaging.version.Version` (PEP 440)

`compare_versions` imports `packaging.version.Version` unconditionally and
tries it before its digit-run fallback, so its behaviour is part of the
program's semantics.  The model below follows `packaging/version.py`: the
anchored `VERSION_PATTERN` regex (case-insensitive, surrounded by optional
whitespace) and the `_cmpkey` comparison key.  Parsing is modelled as a
committed recursive descent on the lowercased, stripped character list;
alternations are tried in an order equivalent (for this grammar) to the
regex engine's backtracking. -/

/-- A parsed segment of a PEP 440 local version: numeric segments compare
above alphanumeric ones. -/
inductive LSeg where
  | num (n : Nat)
  | str (s : List Char)
deriving DecidableEq

/-- The pre-release slot of `_cmpkey`: `NegativeInfinity` (pure dev
release), an actual `(letter, number)` pair with the letter encoded by its
rank (`a` = 0, `b` = 1, `rc` = 2), or `Infinity` (no pre-release). -/
inductive PreF where
  | neg
  | val (r n : Nat)
  | inf
deriving DecidableEq

/-- The comparison key produced by `packaging.version._cmpkey`.  In
`post`, `none` stands for `NegativeInfinity`; in `dev`, `none` stands for
`Infinity`; in `loc`, `none` stands for `NegativeInfinity`. -/
structure PepKey where
  epoch : Nat
  release : List Nat
  pre : PreF
  post : Option Nat
  dev : Option Nat
  loc : Option (List LSeg)
deriving DecidableEq

/-- Three-way comparison on `Nat` (Python `int` comparison). -/
def natCmp (a b : Nat) : Ordering :=
  if a < b then .lt else if b < a then .gt else .eq

/-- Lexicographic chaining of two comparisons (Python tuple comparison). -/
def thenC : Ordering → Ordering → Ordering
  | .eq, o => o
  | o, _ => o

/-- Python list/tuple comparison: elementwise, a strict prefix is
smaller. -/
def listCmpWith (f : α → α → Ordering) : List α → List α → Ordering
  | [], [] => .eq
  | [], _ :: _ => .lt
  | _ :: _, [] => .gt
  | a :: as, b :: bs => thenC (f a b) (listCmpWith f as bs)

/-- Python string comparison (code-point lexicographic). -/
def charListCmp (a b : List Char) : Ordering :=
  listCmpWith (fun c d => natCmp c.toNat d.toNat) a b

/-- Comparison of local-version segments: `(i, "")` for ints versus
`(NegativeInfinity, s)` for strings, so every string sorts below every
int. -/
def lsegCmp : LSeg → LSeg → Ordering
  | .num a, .num b => natCmp a b
  | .num _, .str _ => .gt
  | .str _, .num _ => .lt
  | .str a, .str b => charListCmp a b

/-- Comparison of the pre-release slot. -/
def preCmp : PreF → PreF → Ordering
  | .neg, .neg => .eq
  | .neg, _ => .lt
  | _, .neg => .gt
  | .inf, .inf => .eq
  | .inf, _ => .gt
  | _, .inf => .lt
  | .val r n, .val r' n' => thenC (natCmp r r') (natCmp n n')

/-- Comparison of the post-release slot (`none` = `NegativeInfinity`). -/
def postCmp : Option Nat → Option Nat → Ordering
  | none, none => .eq
  | none, some _ => .lt
  | some _, none => .gt
  | some a, some b => natCmp a b

/-- Comparison of the dev-release slot (`none` = `Infinity`). -/
def devCmp : Option Nat → Option Nat → Ordering
  | none, none => .eq
  | none, some _ => .gt
  | some _, none => .lt
  | some a, some b => natCmp a b

/-- Comparison of the local slot (`none` = `NegativeInfinity`). -/
def locCmp : Option (List LSeg) → Option (List LSeg) → Ordering
  | none, none => .eq
  | none, some _ => .lt
  | some _, none => .gt
  | some a, some b => listCmpWith lsegCmp a b

/-- Comparison of full `_cmpkey` tuples. -/
def keyCmp (a b : PepKey) : Ordering :=
  thenC (natCmp a.epoch b.epoch)
    (thenC (listCmpWith natCmp a.release b.release)
      (thenC (preCmp a.pre b.pre)
        (thenC (postCmp a.post b.post)
          (thenC (devCmp a.dev b.dev) (locCmp a.loc b.loc)))))

/-- `Version.__lt__`: comparison of the keys. -/
def pepLt (a b : PepKey) : Bool := keyCmp a b == Ordering.lt

/-- Trailing zeros of the release tuple are dropped by `_cmpkey` before
comparison. -/
def stripTZ : List Nat → List Nat
  | [] => []
  | x :: xs =>
    match stripTZ xs with
    | [] => if x = 0 then [] else [x]
    | ys => x :: ys

/-! ### Recursive-descent parser for the anchored `VERSION_PATTERN` -/

/-- The separator class `[-_\.]` of the pattern. -/
def isSep (c : Char) : Bool := c = '-' || c = '_' || c = '.'

/-- Consume an optional separator (`[-_\.]?`, greedy). -/
def dropSep : List Char → List Char
  | [] => []
  | c :: cs => if isSep c then cs else c :: cs

/-- Match a literal word, returning the rest on success. -/
def matchLit : List Char → List Char → Option (List Char)
  | [], cs => some cs
  | _ :: _, [] => none
  | l :: ls, c :: cs => if c = l then matchLit ls cs else none

/-- Try a list of (literal, rank) alternatives in order, returning the
rank and the rest after the first literal that matches. -/
def matchAny : List (List Char × Nat) → List Char → Option (Nat × List Char)
  | [], _ => none
  | (lit, r) :: rest, cs =>
    match matchLit lit cs with
    | some t => some (r, t)
    | none => matchAny rest cs

/-- The pre-release letter alternatives `alpha|a|beta|b|preview|pre|c|rc`
with their normalized ranks (`a` = 0, `b` = 1, `rc` = 2 as in
`_parse_letter_version`), longer words before their prefixes, which for
this alternation agrees with the regex engine's backtracking. -/
def preLits : List (List Char × Nat) :=
  [ (['a','l','p','h','a'], 0), (['p','r','e','v','i','e','w'], 2),
    (['b','e','t','a'], 1), (['p','r','e'], 2), (['r','c'], 2),
    (['a'], 0), (['b'], 1), (['c'], 2) ]

/-- Match one pre-release letter. -/
def matchPreLetter (cs : List Char) : Option (Nat × List Char) :=
  matchAny preLits cs

/-- The post-release letter alternatives `post|rev|r` (all normalize to
`post`, so only the remainder matters; the rank is unused). -/
def postLits : List (List Char × Nat) :=
  [ (['p','o','s','t'], 0), (['r','e','v'], 0), (['r'], 0) ]

/-- Match one post-release letter. -/
def matchPostLetter (cs : List Char) : Option (List Char) :=
  (matchAny postLits cs).map (fun p => p.2)

/-- The `(?:\.[0-9]+)*` tail of the release segment, fuelled by the input
length (each step consumes at least two characters). -/
def relLoopF : Nat → List Char → List Nat × List Char
  | 0, cs => ([], cs)
  | Nat.succ f, cs =>
    match cs with
    | c :: rest =>
      if c = '.' then
        match takeDigits rest with
        | ([], _) => ([], c :: rest)
        | (ds, r) =>
          let p := relLoopF f r
          (natOfDigits ds :: p.1, p.2)
      else ([], c :: rest)
    | [] => ([], [])

/-- Pre-release group `([-_\.]? letter [-_\.]? [0-9]*)?` with the implicit
zero of `_parse_letter_version`. -/
def parsePre (cs : List Char) : Option (Nat × Nat) × List Char :=
  match matchPreLetter (dropSep cs) with
  | none => (none, cs)
  | some (rank, c2) =>
    let p := takeDigits (dropSep c2)
    (some (rank, natOfDigits p.1), p.2)

/-- Post-release group: implicit `-N` form first, then
`[-_\.]? (post|rev|r) [-_\.]? [0-9]*`. -/
def parsePost (cs : List Char) : Option Nat × List Char :=
  let alt2 : Option Nat × List Char :=
    match matchPostLetter (dropSep cs) with
    | none => (none, cs)
    | some c2 =>
      let p := takeDigits (dropSep c2)
      (some (natOfDigits p.1), p.2)
  match cs with
  | c :: rest =>
    if c = '-' then
      match takeDigits rest with
      | ([], _) => alt2
      | (ds, r) => (some (natOfDigits ds), r)
    else alt2
  | [] => alt2

/-- Dev-release group `([-_\.]? dev [-_\.]? [0-9]*)?`. -/
def parseDev (cs : List Char) : Option Nat × List Char :=
  match matchLit ['d','e','v'] (dropSep cs) with
  | none => (none, cs)
  | some c2 =>
    let p := takeDigits (dropSep c2)
    (some (natOfDigits p.1), p.2)

/-- Lowercase alphanumeric class of the local version (input is already
lowercased). -/
def isAlnumLow (c : Char) : Bool := c.isDigit || ('a' ≤ c && c ≤ 'z')

/-- Maximal leading run of local-version alphanumerics. -/
def takeAlnum : List Char → List Char × List Char
  | [] => ([], [])
  | c :: cs =>
    if isAlnumLow c then
      let p := takeAlnum cs
      (c :: p.1, p.2)
    else ([], c :: cs)

/-- A local segment: numeric if it is all digits, else the string itself
(`_parse_local_version`). -/
def segVal (s : List Char) : LSeg :=
  if s.all Char.isDigit then .num (natOfDigits s) else .str s

/-- The `(?:[-_\.][a-z0-9]+)*` tail of the local version, fuelled by the
input length. -/
def segLoopF : Nat → List Char → List (List Char) × List Char
  | 0, cs => ([], cs)
  | Nat.succ f, cs =>
    match cs with
    | c :: rest =>
      if isSep c then
        match takeAlnum rest with
        | ([], _) => ([], cs)
        | (sg, r) =>
          let p := segLoopF f r
          (sg :: p.1, p.2)
      else ([], cs)
    | [] => ([], [])

/-- Local-version group `(?:\+(?P<local>[a-z0-9]+(?:[-_\.][a-z0-9]+)*))?`.
A bare `+` leaves the `+` unconsumed (the group does not match), so the
final end-of-input check fails, as with the regex. -/
def parseLoc (cs : List Char) : Option (List LSeg) × List Char :=
  match cs with
  | c :: rest =>
    if c = '+' then
      match takeAlnum rest with
      | ([], _) => (none, c :: rest)
      | (sg, r) =>
        let p := segLoopF r.length r
        (some (segVal sg :: p.1.map segVal), p.2)
    else (none, c :: rest)
  | [] => (none, [])

/-- The optional single leading `v` of the pattern (input lowercased). -/
def dropV : List Char → List Char
  | c :: cs => if c = 'v' then cs else c :: cs
  | [] => []

/-- Raw matched groups of the pattern, before `_cmpkey`. -/
structure RawParts where
  epoch : Nat
  release : List Nat
  pre : Option (Nat × Nat)
  post : Option Nat
  dev : Option Nat
  loc : Option (List LSeg)
deriving DecidableEq

/-- Parse the release segment and everything after it (pre, post, dev,
local), then require end of input; `ep` is the already-parsed epoch. -/
def parseFromRelease (ep : Nat) (cs : List Char) : Option RawParts :=
  let pr := takeDigits cs
  match pr.1 with
  | [] => none
  | _ :: _ =>
    let rl := relLoopF pr.2.length pr.2
    let s1 := parsePre rl.2
    let s2 := parsePost s1.2
    let s3 := parseDev s2.2
    let s4 := parseLoc s3.2
    if s4.2.isEmpty then
      some ⟨ep, natOfDigits pr.1 :: rl.1, s1.1, s2.1, s3.1, s4.1⟩
    else none

/-- Parse everything after the optional `v`: the optional epoch, then the
rest. -/
def parseAfterV (cs : List Char) : Option RawParts :=
  let pe := takeDigits cs
  let ec :=
    match pe.1, pe.2 with
    | d :: ds, x :: r => if x = '!' then (natOfDigits (d :: ds), r) else (0, cs)
    | _, _ => (0, cs)
  parseFromRelease ec.1 ec.2

/-- `_cmpkey` applied to the raw parts. -/
def mkKey (p : RawParts) : PepKey :=
  { epoch := p.epoch
    release := stripTZ p.release
    pre :=
      match p.pre, p.post, p.dev with
      | none, none, some _ => PreF.neg
      | none, _, _ => PreF.inf
      | some rn, _, _ => PreF.val rn.1 rn.2
    post := p.post
    dev := p.dev
    loc := p.loc }

/-- Model of `packaging.version.Version(s)`: `none` when the constructor
raises `InvalidVersion`, otherwise the comparison key. -/
def pepParseS (s : String) : Option PepKey :=
  (parseAfterV (dropV (List.map Char.toLower (pyStrip s.toList)))).map mkKey

/-! ## `compare_versions` (version_status.py lines 142-163) -/

/-- Model of the local `split` helper: `[int(p) for p in re.findall(r"\d+", ver)]`. -/
def split_digits (ver : String) : List Nat := digitRuns ver.toList

/-- Model of `compare_versions(installed, latest)`.  `Version` is imported
unconditionally, so the `if Version:` branch is always tried first; the
digit-run fallback runs only when constructing either `Version` raises.
The `except ValueError: return "unknown"` guard around the fallback is
unreachable in this model because `int` on a digit run is total. -/
def compare_versions (installed latest : Option String) : String :=
  if !truthyS installed then "not_installed"
  else if !truthyS latest then "unknown"
  else
    let i := installed.getD ""
    let l := latest.getD ""
    match pepParseS i, pepParseS l with
    | some k1, some k2 => if pepLt k1 k2 then "outdated" else "current"
    | _, _ =>
      if listLtNat (split_digits i) (split_digits l) then "outdated" else "current"

/-! ## Catalog, resolution, and the main loop (lines 28-66, 183-227) -/

/-- Model of the `ComponentConfig` dataclass.  `pattern` is modelled as
the matcher of its regex (group-1 text of the leftmost match). -/
structure ComponentConfig where
  name : String
  source : String
  repo : Option String := none
  «alias» : Option String := none
  pattern : Option (List Char → Option (List Char)) := none
  kind : String := "extension"

/-- An output row of the main loop (lines 221-227). -/
structure VersionRecord where
  component : String
  installed_version : String
  latest_version : String
  status : String
  source : String
deriving DecidableEq, Repr

/-- First-match association lookup: model of both `CONFIG.get` and
membership/lookup in the `cache` dict (together with `cacheIns`, which
shadows). -/
def lookupA {α : Type} : List (String × α) → String → Option α
  | [], _ => none
  | (k, v) :: t, k' => if k' == k then some v else lookupA t k'

/-- Dict insertion `cache[component] = latest`, modelled by shadowing. -/
def cacheIns {α : Type} (cache : List (String × α)) (k : String) (v : α) :
    List (String × α) := (k, v) :: cache

/-- Model of `resolve_latest(component, cache)` (lines 183-200), fuelled:
the Python function recurses on the alias target with the *same, not yet
updated* cache, so on a cyclic alias graph it recurses unboundedly; a
`none` result for every fuel models that divergence.  The external
`fetch_github_latest` is the injected oracle `fetch`; the returned list
records the repositories fetched. -/
def resolve_latest (cfgs : List (String × ComponentConfig))
    (fetch : String → Option String) :
    Nat → String → List (String × Option String) →
    Option (Option String × List (String × Option String) × List String)
  | 0, _, _ => none
  | Nat.succ fuel, component, cache =>
    match lookupA cache component with
    | some v => some (v, cache, [])
    | none =>
      match lookupA cfgs component with
      | none => some (none, cacheIns cache component none, [])
      | some cfg =>
        if cfg.source == "alias" && truthyS cfg.«alias» then
          match resolve_latest cfgs fetch fuel (cfg.«alias».getD "") cache with
          | none => none
          | some (latest, cache', log) =>
            some (latest, cacheIns cache' component latest, log)
        else if cfg.source == "github" && truthyS cfg.repo then
          let repo := cfg.repo.getD ""
          let tag := fetch repo
          let latest := normalize_version (tag.getD "") cfg.pattern
          some (latest, cacheIns cache component latest, [repo])
        else
          some (none, cacheIns cache component none, [])

/-- The `source` column: `cfg.«alias» or cfg.repo or cfg.source or ""`
(the final `or ""` is the identity on a plain string). -/
def pyOrS (a : Option String) (b : String) : String :=
  match a with
  | some s => if s == "" then b else s
  | none => b

/-- Row construction from the computed installed/latest options
(lines 221-227): `x or ""` renders `None` as the empty string. -/
def mkRow (name : String) (cfg : ComponentConfig) (iv lv : Option String) :
    VersionRecord :=
  { component := name
    installed_version := iv.getD ""
    latest_version := lv.getD ""
    status := compare_versions iv lv
    source := pyOrS cfg.«alias» (pyOrS cfg.repo cfg.source) }

/-- One iteration of the loop of `main` (lines 212-227) on entry
`(name, cfg)`: installed resolution, latest resolution (skipped for
`kind = "core"`), re-normalization for `kind = "server"`, then the row. -/
def processEntry (cfgs : List (String × ComponentConfig))
    (fetch : String → Option String) (inst : String → Option String)
    (sv : String) (fuel : Nat)
    (cache : List (String × Option String)) (e : String × ComponentConfig) :
    Option (VersionRecord × List (String × Option String) × List String) :=
  let name := e.1
  let cfg := e.2
  let installedV : Option String :=
    if cfg.kind == "server" then some sv else inst name
  if cfg.kind == "core" then
    some (mkRow name cfg installedV (some sv), cache, [])
  else
    match resolve_latest cfgs fetch fuel name cache with
    | none => none
    | some (lv, cache', log) =>
      let lv2 : Option String :=
        if truthyS lv && cfg.kind == "server" then
          normalize_version (lv.getD "") none
        else lv
      some (mkRow name cfg installedV lv2, cache', log)

/-- The fold of the loop of `main` over the catalog entries, threading the
cache and accumulating rows and the fetch log. -/
def reconcileAux (cfgs : List (String × ComponentConfig))
    (fetch : String → Option String) (inst : String → Option String)
    (sv : String) (fuel : Nat) :
    List (String × ComponentConfig) → List (String × Option String) →
    Option (List VersionRecord × List (String × Option String) × List String)
  | [], cache => some ([], cache, [])
  | e :: es, cache =>
    match processEntry cfgs fetch inst sv fuel cache e with
    | none => none
    | some (row, cache', log) =>
      match reconcileAux cfgs fetch inst sv fuel es cache' with
      | none => none
      | some (rows, cache'', log') => some (row :: rows, cache'', log ++ log')

/-- Model of the reconciliation of `main` (lines 209-227): the cache is
pre-seeded with `{"postgresql": normalize_version(server_version)}` and
the loop runs over the catalog in its iteration order. -/
def reconcile (cfgs : List (String × ComponentConfig))
    (fetch : String → Option String) (inst : String → Option String)
    (sv : String) (fuel : Nat) :
    Option (List VersionRecord × List (String × Option String) × List String) :=
  reconcileAux cfgs fetch inst sv fuel cfgs
    (cacheIns [] "postgresql" (normalize_version sv none))

/-- The catalog entry of the server component itself. -/
def pgCfg : ComponentConfig :=
  { name := "postgresql", source := "github", repo := some "postgres/postgres",
    kind := "server" }

/-- The static catalog `CONFIG` (lines 38-66), in dict insertion order. -/
def CONFIG : List (String × ComponentConfig) :=
  [ ("postgresql", pgCfg),
    ("postgis", { name := "postgis", source := "github", repo := some "postgis/postgis" }),
    ("postgis_raster", { name := "postgis_raster", source := "alias", «alias» := some "postgis" }),
    ("postgis_topology", { name := "postgis_topology", source := "alias", «alias» := some "postgis" }),
    ("postgis_tiger_geocoder", { name := "postgis_tiger_geocoder", source := "alias", «alias» := some "postgis" }),
    ("address_standardizer", { name := "address_standardizer", source := "alias", «alias» := some "postgis" }),
    ("address_standardizer_data_us", { name := "address_standardizer_data_us", source := "alias", «alias» := some "postgis" }),
    ("vector", { name := "vector", source := "github", repo := some "pgvector/pgvector" }),
    ("pgvector", { name := "pgvector", source := "alias", «alias» := some "vector" }),
    ("age", { name := "age", source := "github", repo := some "apache/age" }),
    ("pg_cron", { name := "pg_cron", source := "github", repo := some "citusdata/pg_cron" }),
    ("pg_partman", { name := "pg_partman", source := "github", repo := some "pgpartman/pg_partman" }),
    ("pg_partman_bgw", { name := "pg_partman_bgw", source := "alias", «alias» := some "pg_partman" }),
    ("hypopg", { name := "hypopg", source := "github", repo := some "HypoPG/hypopg" }),
    ("pg_repack", { name := "pg_repack", source := "github", repo := some "reorg/pg_repack", pattern := some (verPatSearch true) }),
    ("pg_squeeze", { name := "pg_squeeze", source := "github", repo := some "cybertec-postgresql/pg_squeeze" }),
    ("pgtap", { name := "pgtap", source := "github", repo := some "theory/pgtap" }),
    ("pgrouting", { name := "pgrouting", source := "github", repo := some "pgRouting/pgrouting" }),
    ("pg_stat_statements", { name := "pg_stat_statements", source := "alias", «alias» := some "postgresql", kind := "core" }),
    ("pg_buffercache", { name := "pg_buffercache", source := "alias", «alias» := some "postgresql", kind := "core" }),
    ("pgcrypto", { name := "pgcrypto", source := "alias", «alias» := some "postgresql", kind := "core" }),
    ("citext", { name := "citext", source := "alias", «alias» := some "postgresql", kind := "core" }),
    ("hstore", { name := "hstore", source := "alias", «alias» := some "postgresql", kind := "core" }),
    ("pg_trgm", { name := "pg_trgm", source := "alias", «alias» := some "postgresql", kind := "core" }),
    ("uuid-ossp", { name := "uuid-ossp", source := "alias", «alias» := some "postgresql", kind := "core" }),
    ("fuzzystrmatch", { name := "fuzzystrmatch", source := "alias", «alias» := some "postgresql", kind := "core" }) ]

/-! ## Definitions used to state the claims -/

/-- Modelled from the spec's words for claim C2: componentwise comparison
of digit runs "with missing trailing components treated as 0". -/
def padLt : List Nat → List Nat → Bool
  | [], bs => bs.any (fun b => 0 < b)
  | _ :: _, [] => false
  | a :: as, b :: bs => if a < b then true else if b < a then false else padLt as bs

/-- Modelled from the spec's words for claim C2: the classification the
claim describes, with the both-present case decided by zero-padded
digit-run comparison. -/
def claimCompare (installed latest : Option String) : String :=
  if !truthyS installed then "not_installed"
  else if !truthyS latest then "unknown"
  else if padLt (split_digits (installed.getD "")) (split_digits (latest.getD "")) then
    "outdated"
  else "current"

/-- Three-way version of `padLt`, used to relate it to the PEP 440
release comparison. -/
def padCmp : List Nat → List Nat → Ordering
  | [], bs => if bs.any (fun b => 0 < b) then .lt else .eq
  | a :: as, [] => if 0 < a then .gt else padCmp as []
  | a :: as, b :: bs => thenC (natCmp a b) (padCmp as bs)

/-- The comparison key of a plain dotted numeric version with digit runs
`A`. -/
def dottedKey (A : List Nat) : PepKey :=
  { epoch := 0, release := stripTZ A, pre := PreF.inf,
    post := none, dev := none, loc := none }

/-- Whether a string contains a decimal digit. -/
def hasDigitS (s : String) : Bool := s.toList.any Char.isDigit

/-- Tail of a plain dotted numeric string: a possibly empty sequence of
`.` followed by a nonempty digit run (fuelled by length). -/
def dotTailF : Nat → List Char → Bool
  | _, [] => true
  | 0, _ :: _ => false
  | Nat.succ f, c :: rest =>
    if c = '.' then
      match takeDigits rest with
      | ([], _) => false
      | (_ :: _, r) => dotTailF f r
    else false

/-- A plain dotted numeric version string: nonempty digit runs separated
by single periods, nothing else. -/
def dottedB (s : String) : Bool :=
  match takeDigits s.toList with
  | ([], _) => false
  | (_ :: _, r) => dotTailF r.length r

/-- Guard for the one non-commuting spot of the underscore-to-period
substitution against the PEP 440 parser: an underscore followed by a
digit right after the release segment. -/
def uDig : List Char → Bool
  | a :: d :: _ => a = '_' && d.isDigit
  | _ => false

/-- The double normalization applied to the server's version on the
`postgresql` row: once when seeding the cache, once by the
`kind == "server"` re-normalization. -/
def nv2 (sv : String) : Option String :=
  (normalize_version sv none).bind fun t => normalize_version t none

/-- The `postgresql` output row of `main` as a function of the server
version (claim C10). -/
def pgRow (sv : String) : VersionRecord :=
  { component := "postgresql"
    installed_version := sv
    latest_version := (nv2 sv).getD ""
    status := compare_versions (some sv) (nv2 sv)
    source := "postgres/postgres" }

/-- A two-component catalog whose alias graph is a cycle (claim C4). -/
def cycCfgs : List (String × ComponentConfig) :=
  [ ("a", { name := "a", source := "alias", «alias» := some "b" }),
    ("b", { name := "b", source := "alias", «alias» := some "a" }) ]

/-- A catalog with an alias to a non-existent component (claim C6). -/
def danglingCfgs : List (String × ComponentConfig) :=
  [ ("a", { name := "a", source := "alias", «alias» := some "ghost" }) ]

/-- An acyclic alias chain in a catalog: each name aliases the next, the
last one is not a (truthy) alias. -/
def isAliasChainB (cfgs : List (String × ComponentConfig)) : List String → Bool
  | [] => false
  | [a] =>
    match lookupA cfgs a with
    | some cfg => !(cfg.source == "alias" && truthyS cfg.«alias»)
    | none => false
  | a :: b :: rest =>
    match lookupA cfgs a with
    | some cfg =>
      cfg.source == "alias" && cfg.«alias» == some b && !(b == "") &&
        isAliasChainB cfgs (b :: rest)
    | none => false

/-- Catalogs whose alias targets are never themselves (truthy) aliases;
`CONFIG` is one.  On such catalogs resolution terminates with any
fuel ≥ 2. -/
def flatAliasB (cfgs : List (String × ComponentConfig)) : Bool :=
  cfgs.all fun e =>
    if e.2.source == "alias" && truthyS e.2.«alias» then
      match lookupA cfgs (e.2.«alias».getD "") with
      | some c2 => !(c2.source == "alias" && truthyS c2.«alias»)
      | none => true
    else true

/-- A one-entry catalog with a `github` source (used as a witness). -/
def ghCfgs : List (String × ComponentConfig) :=
  [ ("g", { name := "g", source := "github", repo := some "owner/repo" }) ]

/-- A one-entry catalog with a `core` component aliasing the server. -/
def coreCfgs : List (String × ComponentConfig) :=
  [ ("pgcrypto",
      { name := "pgcrypto", source := "alias", «alias» := some "postgresql", kind := "core" }) ]

/-- No catalog entry other than `k` carries the repository `r`. -/
def repoOnly (cfgs : List (String × ComponentConfig)) (r k : String) : Bool :=
  cfgs.all fun e => !(e.2.repo == some r) || (e.1 == k)

theorem cycResolveDiverges (fetch : String → Option String) :
    ∀ (fuel : Nat) (cache : List (String × Option String)),
      lookupA cache "a" = none → lookupA cache "b" = none →
      resolve_latest cycCfgs fetch fuel "a" cache = none ∧
      resolve_latest cycCfgs fetch fuel "b" cache = none := by
  intro fuel
  induction fuel with
  | zero => intro cache _ _; exact ⟨rfl, rfl⟩
  | succ f ih =>
    intro cache ha hb
    constructor
    · have hr := (ih cache ha hb).2
      simp only [cycCfgs] at hr
      simp only [resolve_latest, ha]
      simp [cycCfgs, lookupA, truthyS, hr]
    · have hr := (ih cache ha hb).1
      simp only [cycCfgs] at hr
      simp only [resolve_latest, hb]
      simp [cycCfgs, lookupA, truthyS, hr]

theorem lookupA_mem {α : Type} :
    ∀ (l : List (String × α)) (k : String) (v : α),
      lookupA l k = some v → (k, v) ∈ l := by
  intro l
  induction l with
  | nil => intro k v h; simp [lookupA] at h
  | cons e t ih =>
    intro k v h
    obtain ⟨k', v'⟩ := e
    rw [lookupA] at h
    split at h
    · next heq =>
      obtain rfl : v' = v := by injection h
      have hk : k = k' := by simpa using heq
      subst hk
      exact List.mem_cons_self _ _
    · exact List.mem_cons_of_mem _ (ih k v h)

theorem resolve_nonalias_total (cfgs : List (String × ComponentConfig))
    (fetch : String → Option String) (f : Nat) (comp : String)
    (cache : List (String × Option String))
    (h : ∀ cfg, lookupA cfgs comp = some cfg →
      (cfg.source == "alias" && truthyS cfg.«alias») = false) :
    ∃ out, resolve_latest cfgs fetch (f + 1) comp cache = some out := by
  rw [show f + 1 = Nat.succ f from rfl, resolve_latest]
  cases hc : lookupA cache comp with
  | some v => exact ⟨_, rfl⟩
  | none =>
    cases hg : lookupA cfgs comp with
    | none => simp only [hg]; exact ⟨_, rfl⟩
    | some cfg =>
      simp only [hg, h cfg hg, Bool.false_eq_true, if_false]
      cases hb : (cfg.source == "github" && truthyS cfg.repo) with
      | true => simp only [hb, if_true]; exact ⟨_, rfl⟩
      | false => simp only [hb, Bool.false_eq_true, if_false]; exact ⟨_, rfl⟩

theorem flatAlias_lookup (cfgs : List (String × ComponentConfig))
    (hf : flatAliasB cfgs = true) (comp : String) (cfg : ComponentConfig)
    (hg : lookupA cfgs comp = some cfg)
    (ha : (cfg.source == "alias" && truthyS cfg.«alias») = true) :
    ∀ cfg2, lookupA cfgs (cfg.«alias».getD "") = some cfg2 →
      (cfg2.source == "alias" && truthyS cfg2.«alias») = false := by
  intro cfg2 hg2
  have hmem := lookupA_mem cfgs comp cfg hg
  rw [flatAliasB, List.all_eq_true] at hf
  have h2 := hf _ hmem
  simp only [ha, if_true] at h2
  rw [hg2] at h2
  cases hs : (cfg2.source == "alias") with
  | false => simp [hs]
  | true =>
    have h3 : ¬cfg2.source = "alias" ∨ truthyS cfg2.«alias» = false := by simpa using h2
    rcases h3 with h3 | h3
    · exact absurd (by simpa using hs) h3
    · simp [hs, h3]

theorem resolve_flat_total (cfgs : List (String × ComponentConfig))
    (fetch : String → Option String) (hf : flatAliasB cfgs = true) :
    ∀ (f : Nat) (comp : String) (cache : List (String × Option String)),
      ∃ out, resolve_latest cfgs fetch (f + 2) comp cache = some out := by
  intro f comp cache
  rw [show f + 2 = Nat.succ (f + 1) from rfl, resolve_latest]
  cases hc : lookupA cache comp with
  | some v => exact ⟨_, rfl⟩
  | none =>
    cases hg : lookupA cfgs comp with
    | none => simp only [hg]; exact ⟨_, rfl⟩
    | some cfg =>
      cases ha : (cfg.source == "alias" && truthyS cfg.«alias») with
      | true =>
        obtain ⟨out2, hout2⟩ := resolve_nonalias_total cfgs fetch f
          (cfg.«alias».getD "") cache (flatAlias_lookup cfgs hf comp cfg hg ha)
        obtain ⟨l1, c1, g1⟩ := out2
        simp only [hg, ha, if_true, hout2]
        exact ⟨_, rfl⟩
      | false =>
        simp only [hg, ha, Bool.false_eq_true, if_false]
        cases hb : (cfg.source == "github" && truthyS cfg.repo) with
        | true => simp only [hb, if_true]; exact ⟨_, rfl⟩
        | false => simp only [hb, Bool.false_eq_true, if_false]; exact ⟨_, rfl⟩

theorem processEntry_core (cfgs : List (String × ComponentConfig))
    (fetch : String → Option String) (inst : String → Option String)
    (sv : String) (fuel : Nat) (cache : List (String × Option String))
    (name : String) (cfg : ComponentConfig) (h : cfg.kind = "core") :
    processEntry cfgs fetch inst sv fuel cache (name, cfg) =
      some (mkRow name cfg (inst name) (some sv), cache, []) := by
  have h1 : (cfg.kind == "core") = true := by simp [h]
  have h2 : (cfg.kind == "server") = false := by simp [h]
  simp only [processEntry, h1, h2, if_true, Bool.false_eq_true, if_false]

theorem processEntry_total (cfgs : List (String × ComponentConfig))
    (fetch : String → Option String) (inst : String → Option String)
    (sv : String) (hf : flatAliasB cfgs = true) (f : Nat)
    (cache : List (String × Option String)) (e : String × ComponentConfig) :
    ∃ out, processEntry cfgs fetch inst sv (f + 2) cache e = some out := by
  cases hk : (e.2.kind == "core") with
  | true =>
    simp only [processEntry, hk, if_true]
    exact ⟨_, rfl⟩
  | false =>
    obtain ⟨⟨lv, c2, lg⟩, hr⟩ := resolve_flat_total cfgs fetch hf f e.1 cache
    simp only [processEntry, hk, Bool.false_eq_true, if_false, hr]
    exact ⟨_, rfl⟩

theorem processEntry_component (cfgs : List (String × ComponentConfig))
    (fetch : String → Option String) (inst : String → Option String)
    (sv : String) (fuel : Nat) (cache : List (String × Option String))
    (e : String × ComponentConfig) (row : VersionRecord)
    (c2 : List (String × Option String)) (lg : List String)
    (h : processEntry cfgs fetch inst sv fuel cache e = some (row, c2, lg)) :
    row.component = e.1 := by
  rw [processEntry] at h
  split at h
  · injection h with h'
    injection h' with h1 h2
    subst h1
    rfl
  · revert h
    cases hr : resolve_latest cfgs fetch fuel e.1 cache with
    | none => intro h; cases h
    | some out =>
      obtain ⟨lv, c3, lg2⟩ := out
      intro h
      injection h with h'
      injection h' with h1 h2
      subst h1
      rfl

theorem reconcileAux_total (cfgs : List (String × ComponentConfig))
    (fetch : String → Option String) (inst : String → Option String)
    (sv : String) (hf : flatAliasB cfgs = true) (f : Nat) :
    ∀ (es : List (String × ComponentConfig)) (cache : List (String × Option String)),
      ∃ out, reconcileAux cfgs fetch inst sv (f + 2) es cache = some out := by
  intro es
  induction es with
  | nil => intro cache; exact ⟨_, rfl⟩
  | cons e t ih =>
    intro cache
    obtain ⟨⟨row, c2, lg⟩, hp⟩ := processEntry_total cfgs fetch inst sv hf f cache e
    obtain ⟨⟨rows, c3, lg2⟩, hr⟩ := ih c2
    simp only [reconcileAux, hp, hr]
    exact ⟨_, rfl⟩

theorem reconcileAux_components (cfgs : List (String × ComponentConfig))
    (fetch : String → Option String) (inst : String → Option String)
    (sv : String) (fuel : Nat) :
    ∀ (es : List (String × ComponentConfig)) (cache : List (String × Option String))
      (rows : List VersionRecord) (c : List (String × Option String)) (log : List String),
      reconcileAux cfgs fetch inst sv fuel es cache = some (rows, c, log) →
      rows.map (fun r => r.component) = es.map (fun e => e.1) := by
  intro es
  induction es with
  | nil =>
    intro cache rows c log h
    simp only [reconcileAux, Option.some.injEq, Prod.mk.injEq] at h
    obtain ⟨h1, _, _⟩ := h
    subst h1
    rfl
  | cons e t ih =>
    intro cache rows c log h
    rw [reconcileAux] at h
    cases hp : processEntry cfgs fetch inst sv fuel cache e with
    | none => simp only [hp] at h; cases h
    | some out =>
      obtain ⟨row, c2, lg⟩ := out
      simp only [hp] at h
      cases hr : reconcileAux cfgs fetch inst sv fuel t c2 with
      | none => simp only [hr] at h; cases h
      | some out2 =>
        obtain ⟨rows2, c3, lg2⟩ := out2
        simp only [hr, Option.some.injEq, Prod.mk.injEq] at h
        obtain ⟨h1, _, _⟩ := h
        subst h1
        simp only [List.map_cons]
        rw [processEntry_component cfgs fetch inst sv fuel cache e row c2 lg hp,
        ih c2 rows2 c3 lg2 hr]

theorem reconcileAux_core_rows (cfgs : List (String × ComponentConfig))
    (fetch : String → Option String) (inst : String → Option String)
    (sv : String) (fuel : Nat) :
    ∀ (es : List (String × ComponentConfig)) (cache : List (String × Option String))
      (rows : List VersionRecord) (c : List (String × Option String)) (log : List String),
      reconcileAux cfgs fetch inst sv fuel es cache = some (rows, c, log) →
      ∀ (i : Nat) (h1 : i < es.length) (h2 : i < rows.length),
        (es.get ⟨i, h1⟩).2.kind = "core" →
        (rows.get ⟨i, h2⟩).latest_version = sv ∧
        (rows.get ⟨i, h2⟩).installed_version = (inst (es.get ⟨i, h1⟩).1).getD "" := by
  intro es
  induction es with
  | nil => intro cache rows c log h i h1; exact absurd h1 (by simp)
  | cons e t ih =>
    intro cache rows c log h i h1 h2 hk
    rw [reconcileAux] at h
    cases hp : processEntry cfgs fetch inst sv fuel cache e with
    | none => simp only [hp] at h; cases h
    | some out =>
      obtain ⟨row, c2, lg⟩ := out
      simp only [hp] at h
      cases hr : reconcileAux cfgs fetch inst sv fuel t c2 with
      | none => simp only [hr] at h; cases h
      | some out2 =>
        obtain ⟨rows2, c3, lg2⟩ := out2
        simp only [hr, Option.some.injEq, Prod.mk.injEq] at h
        obtain ⟨h1', _, _⟩ := h
        subst h1'
        cases i with
        | zero =>
          obtain ⟨name, cfg⟩ := e
          have hk' : cfg.kind = "core" := hk
          rw [processEntry_core cfgs fetch inst sv fuel cache name cfg hk'] at hp
          injection hp with hp'
          injection hp' with hpr _
          subst hpr
          exact ⟨rfl, rfl⟩
        | succ j =>
          exact ih c2 rows2 c3 lg2 hr j (by simpa using h1) (by simpa using h2) hk

theorem resolve_nonalias_fuel (cfgs : List (String × ComponentConfig))
    (fetch : String → Option String) (comp : String)
    (cache : List (String × Option String)) (cfg : ComponentConfig)
    (hc : lookupA cache comp = none)
    (hg : lookupA cfgs comp = some cfg)
    (ha : (cfg.source == "alias" && truthyS cfg.«alias») = false) (n : Nat) :
    resolve_latest cfgs fetch (n + 1) comp cache =
      (if (cfg.source == "github" && truthyS cfg.repo) = true then
        some (normalize_version ((fetch (cfg.repo.getD "")).getD "") cfg.pattern,
          cacheIns cache comp
            (normalize_version ((fetch (cfg.repo.getD "")).getD "") cfg.pattern),
          [cfg.repo.getD ""])
      else some (none, cacheIns cache comp none, [])) := by
  rw [show n + 1 = Nat.succ n from rfl, resolve_latest]
  simp only [hc, hg, ha, Bool.false_eq_true, if_false]

theorem resolve_chain (cfgs : List (String × ComponentConfig))
    (fetch : String → Option String) :
    ∀ (names : List String) (cache : List (String × Option String)),
      isAliasChainB cfgs names = true →
      (∀ n ∈ names, lookupA cache n = none) →
      ∃ v c1 l c2,
        resolve_latest cfgs fetch (names.length + 1) (names.headD "") cache =
          some (v, c1, l) ∧
        resolve_latest cfgs fetch 1 (names.getLastD "") cache = some (v, c2, l) := by
  intro names
  induction names with
  | nil => intro cache h; cases h
  | cons a rest ih =>
    intro cache hch hcache
    cases rest with
    | nil =>
      have hca : lookupA cache a = none := hcache a (by simp)
      cases hga : lookupA cfgs a with
      | none => rw [isAliasChainB, hga] at hch; cases hch
      | some cfg =>
        simp only [isAliasChainB, hga] at hch
        have ha : (cfg.source == "alias" && truthyS cfg.«alias») = false := by
          cases hx : (cfg.source == "alias" && truthyS cfg.«alias») with
          | false => rfl
          | true => rw [hx] at hch; cases hch
        have e1 := resolve_nonalias_fuel cfgs fetch a cache cfg hca hga ha 1
        have e2 := resolve_nonalias_fuel cfgs fetch a cache cfg hca hga ha 0
        cases hb : (cfg.source == "github" && truthyS cfg.repo) with
        | true =>
          rw [hb, if_pos rfl] at e1 e2
          exact ⟨_, _, _, _, e1, e2⟩
        | false =>
          rw [hb] at e1 e2
          simp only [Bool.false_eq_true, if_false] at e1 e2
          exact ⟨_, _, _, _, e1, e2⟩
    | cons b rest2 =>
      have hca : lookupA cache a = none := hcache a (by simp)
      cases hga : lookupA cfgs a with
      | none => rw [isAliasChainB, hga] at hch; cases hch
      | some cfg =>
        rw [isAliasChainB, hga] at hch
        rw [Bool.and_eq_true, Bool.and_eq_true, Bool.and_eq_true] at hch
        obtain ⟨⟨⟨hs, hal⟩, hbne⟩, hrest⟩ := hch
        have halias : cfg.«alias» = some b := by simpa using hal
        obtain ⟨v, c1, l, c2, hb1, hb2⟩ := ih cache hrest
          (fun n hn => hcache n (List.mem_cons_of_mem _ hn))
        refine ⟨v, cacheIns c1 a v, l, c2, ?_, ?_⟩
        · rw [show (a :: b :: rest2).length + 1 = Nat.succ ((b :: rest2).length + 1)
            from rfl, resolve_latest]
          simp only [List.headD]
          have hcond : (cfg.source == "alias" && truthyS cfg.«alias») = true := by
            rw [hs, halias]
            simpa [truthyS] using hbne
          have hgetd : cfg.«alias».getD "" = b := by rw [halias]; rfl
          simp only [hca, hga, hcond, if_true, hgetd]
          simp only [List.headD] at hb1
          rw [hb1]
        · rw [show (a :: b :: rest2).getLastD "" = (b :: rest2).getLastD "" from rfl]
          exact hb2

theorem lookupA_cacheIns_ne {α : Type} (cache : List (String × α)) (k comp : String)
    (v : α) (h : ¬k = comp) : lookupA (cacheIns cache comp v) k = lookupA cache k := by
  rw [cacheIns, lookupA, if_neg]
  simpa using h

theorem resolve_cache_inv (cfgs : List (String × ComponentConfig))
    (fetch : String → Option String) (r k : String)
    (hro : repoOnly cfgs r k = true) :
    ∀ (fuel : Nat) (comp : String) (cache : List (String × Option String))
      (x : Option String) (v : Option String)
      (c' : List (String × Option String)) (log : List String),
      lookupA cache k = some x →
      resolve_latest cfgs fetch fuel comp cache = some (v, c', log) →
      lookupA c' k = some x ∧ r ∉ log := by
  intro fuel
  induction fuel with
  | zero => intro comp cache x v c' log _ h; cases h
  | succ f ih =>
    intro comp cache x v c' log hk h
    rw [resolve_latest] at h
    cases hc : lookupA cache comp with
    | some w =>
      simp only [hc, Option.some.injEq, Prod.mk.injEq] at h
      obtain ⟨_, h2, h3⟩ := h
      subst h2; subst h3
      exact ⟨hk, by simp⟩
    | none =>
      have hne : ¬k = comp := fun he => by rw [he, hc] at hk; cases hk
      simp only [hc] at h
      cases hg : lookupA cfgs comp with
      | none =>
        simp only [hg, Option.some.injEq, Prod.mk.injEq] at h
        obtain ⟨_, h2, h3⟩ := h
        subst h2; subst h3
        exact ⟨by rw [lookupA_cacheIns_ne _ _ _ _ hne]; exact hk, by simp⟩
      | some cfg =>
        simp only [hg] at h
        by_cases hal : (cfg.source == "alias" && truthyS cfg.«alias») = true
        · rw [if_pos hal] at h
          cases hrec : resolve_latest cfgs fetch f (cfg.«alias».getD "") cache with
          | none => rw [hrec] at h; cases h
          | some out =>
            obtain ⟨lv, c2, lg⟩ := out
            rw [hrec] at h
            simp only [Option.some.injEq, Prod.mk.injEq] at h
            obtain ⟨h1, h2, h3⟩ := h
            subst h1; subst h2; subst h3
            obtain ⟨hp, hl⟩ := ih _ cache x lv c2 lg hk hrec
            exact ⟨by rw [lookupA_cacheIns_ne _ _ _ _ hne]; exact hp, hl⟩
        · rw [if_neg hal] at h
          by_cases hgb : (cfg.source == "github" && truthyS cfg.repo) = true
          · rw [if_pos hgb] at h
            simp only [Option.some.injEq, Prod.mk.injEq] at h
            obtain ⟨h1, h2, h3⟩ := h
            subst h1; subst h2; subst h3
            refine ⟨by rw [lookupA_cacheIns_ne _ _ _ _ hne]; exact hk, ?_⟩
            intro hmem
            have hr : r = cfg.repo.getD "" := by simpa using hmem
            rw [Bool.and_eq_true] at hgb
            obtain ⟨_, htr⟩ := hgb
            cases hrep : cfg.repo with
            | none => rw [hrep] at htr; cases htr
            | some s =>
              have hsr : s = r := by rw [hrep] at hr; simpa using hr.symm
              have hmem2 := lookupA_mem cfgs comp cfg hg
              rw [repoOnly, List.all_eq_true] at hro
              have h4 := hro _ hmem2
              have h5 : (cfg.repo == some r) = true := by
                rw [hrep, hsr]
                simp
              rw [h5] at h4
              simp only [Bool.not_true, Bool.false_or] at h4
              have hck : comp = k := by simpa using h4
              rw [hck] at hc
              rw [hc] at hk
              cases hk
          · rw [if_neg hgb] at h
            simp only [Option.some.injEq, Prod.mk.injEq] at h
            obtain ⟨h1, h2, h3⟩ := h
            subst h1; subst h2; subst h3
            exact ⟨by rw [lookupA_cacheIns_ne _ _ _ _ hne]; exact hk, by simp⟩

theorem processEntry_cache_inv (cfgs : List (String × ComponentConfig))
    (fetch : String → Option String) (inst : String → Option String)
    (sv : String) (r k : String) (hro : repoOnly cfgs r k = true)
    (fuel : Nat) (cache : List (String × Option String)) (x : Option String)
    (e : String × ComponentConfig) (row : VersionRecord)
    (c' : List (String × Option String)) (log : List String)
    (hk : lookupA cache k = some x)
    (h : processEntry cfgs fetch inst sv fuel cache e = some (row, c', log)) :
    lookupA c' k = some x ∧ r ∉ log := by
  rw [processEntry] at h
  split at h
  · simp only [Option.some.injEq, Prod.mk.injEq] at h
    obtain ⟨_, h2, h3⟩ := h
    subst h2; subst h3
    exact ⟨hk, by simp⟩
  · revert h
    cases hr : resolve_latest cfgs fetch fuel e.1 cache with
    | none => intro h; cases h
    | some out =>
      obtain ⟨lv, c2, lg⟩ := out
      intro h
      simp only [Option.some.injEq, Prod.mk.injEq] at h
      obtain ⟨_, h2, h3⟩ := h
      subst h2; subst h3
      exact resolve_cache_inv cfgs fetch r k hro fuel e.1 cache x lv c2 lg hk hr

theorem reconcileAux_log_avoid (cfgs : List (String × ComponentConfig))
    (fetch : String → Option String) (inst : String → Option String)
    (sv : String) (r k : String) (hro : repoOnly cfgs r k = true) (fuel : Nat) :
    ∀ (es : List (String × ComponentConfig)) (cache : List (String × Option String))
      (x : Option String) (rows : List VersionRecord)
      (c : List (String × Option String)) (log : List String),
      lookupA cache k = some x →
      reconcileAux cfgs fetch inst sv fuel es cache = some (rows, c, log) →
      r ∉ log := by
  intro es
  induction es with
  | nil =>
    intro cache x rows c log hk h
    simp only [reconcileAux, Option.some.injEq, Prod.mk.injEq] at h
    obtain ⟨_, _, h3⟩ := h
    subst h3
    simp
  | cons e t ih =>
    intro cache x rows c log hk h
    rw [reconcileAux] at h
    cases hp : processEntry cfgs fetch inst sv fuel cache e with
    | none => simp only [hp] at h; cases h
    | some out =>
      obtain ⟨row, c2, lg⟩ := out
      simp only [hp] at h
      cases hrec : reconcileAux cfgs fetch inst sv fuel t c2 with
      | none => simp only [hrec] at h; cases h
      | some out2 =>
        obtain ⟨rows2, c3, lg2⟩ := out2
        simp only [hrec, Option.some.injEq, Prod.mk.injEq] at h
        obtain ⟨_, _, h3⟩ := h
        subst h3
        obtain ⟨hp2, hl1⟩ := processEntry_cache_inv cfgs fetch inst sv r k hro
          fuel cache x e row c2 lg hk hp
        have hl2 := ih c2 x rows2 c3 lg2 hp2 hrec
        rw [List.mem_append]
        rintro (hm | hm)
        · exact hl1 hm
        · exact hl2 hm

theorem normalize_version_ne_some_empty (tag : String)
    (p : Option (List Char → Option (List Char))) :
    normalize_version tag p ≠ some "" := by
  unfold normalize_version
  split
  · simp
  · have hfin : ∀ cs, normFinish cs ≠ some "" := by
      intro cs
      rw [normFinish]
      split
      · simp
      · next hne =>
        intro hcon
        injection hcon with hcon
        have hnil : normCore cs = [] := by
          have hdata : (String.mk (normCore cs)).data = ("" : String).data := by rw [hcon]
          simpa using hdata
        rw [hnil] at hne
        simp at hne
    cases p with
    | none => exact hfin _
    | some pf =>
      cases hg : pf tag.toList with
      | none => simp only [hg]; simp
      | some g => simp only [hg]; exact hfin g

theorem processEntry_postgresql (fetch : String → Option String)
    (inst : String → Option String) (sv : String) (f : Nat)
    (cache : List (String × Option String))
    (hcache : lookupA cache "postgresql" = some (normalize_version sv none)) :
    processEntry CONFIG fetch inst sv (f + 1) cache ("postgresql", pgCfg) =
      some (pgRow sv, cache, []) := by
  have hres : resolve_latest CONFIG fetch (f + 1) "postgresql" cache =
      some (normalize_version sv none, cache, []) := by
    rw [show f + 1 = Nat.succ f from rfl, resolve_latest]
    simp only [hcache]
  cases hn : normalize_version sv none with
  | none =>
    rw [hn] at hres
    have hnv2 : nv2 sv = none := by rw [nv2, hn]; rfl
    simp [processEntry, hres, pgRow, mkRow, nv2, hn, truthyS, pyOrS, pgCfg]
  | some t =>
    rw [hn] at hres
    have ht : (t == "") = false := by
      have := normalize_version_ne_some_empty sv none
      rw [hn] at this
      simp only [ne_eq, Option.some.injEq] at this
      simpa using this
    have hnv2 : nv2 sv = normalize_version t none := by rw [nv2, hn]; rfl
    simp [processEntry, hres, pgRow, mkRow, hnv2, truthyS, ht, pyOrS, pgCfg]

theorem reconcile_CONFIG_head (fetch : String → Option String)
    (inst : String → Option String) (sv : String) (f : Nat) :
    ∃ rest c log,
      reconcile CONFIG fetch inst sv (f + 2) = some (pgRow sv :: rest, c, log) ∧
      "postgres/postgres" ∉ log := by
  have hseed : lookupA (cacheIns [] "postgresql" (normalize_version sv none))
      "postgresql" = some (normalize_version sv none) := rfl
  have hp := processEntry_postgresql fetch inst sv (f + 1)
    (cacheIns [] "postgresql" (normalize_version sv none)) hseed
  obtain ⟨⟨rows2, c3, lg2⟩, hrest⟩ := reconcileAux_total CONFIG fetch inst sv
    (by decide) f CONFIG.tail (cacheIns [] "postgresql" (normalize_version sv none))
  refine ⟨rows2, c3, [] ++ lg2, ?_, ?_⟩
  · show reconcileAux CONFIG fetch inst sv (f + 2)
      (("postgresql", pgCfg) :: CONFIG.tail)
      (cacheIns [] "postgresql" (normalize_version sv none)) = _
    rw [reconcileAux]
    simp only [show f + 1 + 1 = f + 2 from rfl] at hp
    simp only [hp, hrest]
  · simp only [List.nil_append]
    exact reconcileAux_log_avoid CONFIG fetch inst sv "postgres/postgres"
      "postgresql" (by decide) (f + 2) CONFIG.tail
      (cacheIns [] "postgresql" (normalize_version sv none))
      (normalize_version sv none) rows2 c3 lg2 hseed hrest

/-- Claim C4 (counterexample): `resolve_latest` on the cyclic alias
catalog `cycCfgs` does not terminate: the fuelled model yields no result
at any recursion depth, because the cache is only written after the
recursive call returns, so the claim's "revisited in-progress name is
treated as unresolved" behaviour does not exist in the code. -/
theorem c4_counterexample :
    ¬ ∃ (fuel : Nat) (out : Option String ×
      List (String × Option String) × List String),
      resolve_latest cycCfgs (fun _ => none) fuel "a" [] = some out := by
  rintro ⟨fuel, out, h⟩
  rw [(cycResolveDiverges (fun _ => none) fuel [] rfl rfl).1] at h
  cases h

/-- Claim C4 (amended): `resolve_latest` recurses on the alias target
with the cache not yet updated for the component being resolved, so on a
cyclic alias graph the recursion is unbounded: for every recursion depth
(fuel) the fuelled model of `resolve_latest` fails to produce a result on
either member of the two-cycle, for every fetch oracle. -/
theorem c4_resolve_cycle_diverges :
    ∀ (fetch : String → Option String) (fuel : Nat),
      resolve_latest cycCfgs fetch fuel "a" [] = none ∧
      resolve_latest cycCfgs fetch fuel "b" [] = none :=
  fun fetch fuel => cycResolveDiverges fetch fuel [] rfl rfl

/-- Claim C6 (counterexample): a catalog whose only entry has an alias to
the non-existent component `"ghost"` does not abort reconciliation: the
run completes normally, producing the full row list with an absent
`latest_version` and status `unknown` for the misconfigured row. -/
theorem c6_counterexample :
    reconcile danglingCfgs (fun _ => none) (fun _ => some "1.0") "16.2" 3 =
      some ([⟨"a", "1.0", "", "unknown", "ghost"⟩],
        [("a", none), ("ghost", none), ("postgresql", some "16.2")], []) := by
  decide

/-- Claim C6 (amended): configuration errors are not fatal.  An alias to
a name absent from the catalog resolves to an absent latest version, and
a `github` component without a (truthy) repository also resolves to an
absent latest version; in both cases `resolve_latest` returns normally
and only records the absence in the cache. -/
theorem c6_config_errors_degrade :
    (∀ (cfgs : List (String × ComponentConfig)) (fetch : String → Option String)
       (f : Nat) (comp : String) (cfg : ComponentConfig)
       (cache : List (String × Option String)),
       lookupA cache comp = none →
       lookupA cfgs comp = some cfg →
       cfg.source = "alias" → truthyS cfg.«alias» = true →
       lookupA cfgs (cfg.«alias».getD "") = none →
       lookupA cache (cfg.«alias».getD "") = none →
       resolve_latest cfgs fetch (f + 2) comp cache =
         some (none, cacheIns (cacheIns cache (cfg.«alias».getD "") none) comp none,
           [])) ∧
    (∀ (cfgs : List (String × ComponentConfig)) (fetch : String → Option String)
       (f : Nat) (comp : String) (cfg : ComponentConfig)
       (cache : List (String × Option String)),
       lookupA cache comp = none →
       lookupA cfgs comp = some cfg →
       cfg.source = "github" → truthyS cfg.repo = false →
       resolve_latest cfgs fetch (f + 1) comp cache =
         some (none, cacheIns cache comp none, [])) := by
  constructor
  · intro cfgs fetch f comp cfg cache hc hg hs hal hgt hct
    have hcond : (cfg.source == "alias" && truthyS cfg.«alias») = true := by
      rw [hs, hal]
      rfl
    have hrec : resolve_latest cfgs fetch (f + 1) (cfg.«alias».getD "") cache =
        some (none, cacheIns cache (cfg.«alias».getD "") none, []) := by
      rw [show f + 1 = Nat.succ f from rfl, resolve_latest]
      simp only [hct, hgt]
    rw [show f + 2 = Nat.succ (f + 1) from rfl, resolve_latest]
    simp only [hc, hg, hcond, if_true, hrec]
  · intro cfgs fetch f comp cfg cache hc hg hs hrt
    have hcond : (cfg.source == "alias" && truthyS cfg.«alias») = false := by
      rw [hs]
      rfl
    have hcond2 : (cfg.source == "github" && truthyS cfg.repo) = false := by
      rw [hs, hrt]
      rfl
    rw [show f + 1 = Nat.succ f from rfl, resolve_latest]
    simp only [hc, hg, hcond, hcond2, Bool.false_eq_true, if_false]

/-- Claim C6 (witness): the amended theorem applied to the dangling-alias
catalog and to a repository-less `github` component. -/
theorem c6_config_errors_degrade_witness :
    resolve_latest danglingCfgs (fun _ => none) 2 "a" [] =
      some (none, cacheIns (cacheIns [] "ghost" none) "a" none, []) ∧
    resolve_latest [("g", { name := "g", source := "github" })]
      (fun _ => none) 1 "g" [] = some (none, cacheIns [] "g" none, []) :=
  ⟨c6_config_errors_degrade.1 danglingCfgs (fun _ => none) 0 "a"
      { name := "a", source := "alias", «alias» := some "ghost" } [] rfl rfl rfl rfl rfl rfl,
    c6_config_errors_degrade.2 [("g", { name := "g", source := "github" })]
      (fun _ => none) 0 "g" { name := "g", source := "github" } [] rfl rfl rfl rfl⟩

/-- Claim C7: for every acyclic alias chain (each member aliasing the
next, the last member not a truthy alias, all members present in the
catalog and none cached yet), `resolve_latest` on the chain's head
terminates within fuel `length + 1` and returns the same value (and the
same fetch log) as resolving the chain's ultimate non-alias target
directly. -/
theorem c7_alias_chain_resolves_to_target :
    ∀ (cfgs : List (String × ComponentConfig)) (fetch : String → Option String)
      (names : List String) (cache : List (String × Option String)),
      isAliasChainB cfgs names = true →
      (∀ n ∈ names, lookupA cache n = none) →
      ∃ v c1 l c2,
        resolve_latest cfgs fetch (names.length + 1) (names.headD "") cache =
          some (v, c1, l) ∧
        resolve_latest cfgs fetch 1 (names.getLastD "") cache = some (v, c2, l) :=
  fun cfgs fetch names cache h1 h2 => resolve_chain cfgs fetch names cache h1 h2

/-- Claim C7 (witness): the chain `pgvector → vector` of the real
catalog, resolved with the all-failing fetch oracle from an empty
cache. -/
theorem c7_alias_chain_resolves_to_target_witness :
    ∃ v c1 l c2,
      resolve_latest CONFIG (fun _ => none) (["pgvector", "vector"].length + 1)
        (["pgvector", "vector"].headD "") [] = some (v, c1, l) ∧
      resolve_latest CONFIG (fun _ => none) 1
        (["pgvector", "vector"].getLastD "") [] = some (v, c2, l) :=
  c7_alias_chain_resolves_to_target CONFIG (fun _ => none) ["pgvector", "vector"] []
    (by decide) (by decide)

/-- Claim C8: for a `kind = "core"` catalog entry the loop does not call
the resolver at all: the cache is untouched, no repository is fetched
(the fetch log of the iteration is empty), and the row's
`latest_version` is exactly the server version; this also holds for
every core row of a completed reconciliation run. -/
theorem c8_core_latest_is_server :
    (∀ (cfgs : List (String × ComponentConfig)) (fetch : String → Option String)
       (inst : String → Option String) (sv : String) (fuel : Nat)
       (cache : List (String × Option String)) (name : String)
       (cfg : ComponentConfig),
       cfg.kind = "core" →
       processEntry cfgs fetch inst sv fuel cache (name, cfg) =
         some (mkRow name cfg (inst name) (some sv), cache, []) ∧
       (mkRow name cfg (inst name) (some sv)).latest_version = sv) ∧
    (∀ (cfgs : List (String × ComponentConfig)) (fetch : String → Option String)
       (inst : String → Option String) (sv : String) (fuel : Nat)
       (rows : List VersionRecord) (c : List (String × Option String))
       (log : List String),
       reconcile cfgs fetch inst sv fuel = some (rows, c, log) →
       ∀ (i : Nat) (h1 : i < cfgs.length) (h2 : i < rows.length),
         (cfgs.get ⟨i, h1⟩).2.kind = "core" →
         (rows.get ⟨i, h2⟩).latest_version = sv) := by
  constructor
  · intro cfgs fetch inst sv fuel cache name cfg h
    exact ⟨processEntry_core cfgs fetch inst sv fuel cache name cfg h, rfl⟩
  · intro cfgs fetch inst sv fuel rows c log h i h1 h2 hk
    exact (reconcileAux_core_rows cfgs fetch inst sv fuel cfgs _ rows c log h
      i h1 h2 hk).1

/-- Claim C8 (witness): the core-only catalog run at concrete inputs. -/
theorem c8_core_latest_is_server_witness :
    (processEntry coreCfgs (fun _ => none)
        (fun n => if n == "pgcrypto" then some "1.3" else none) "16.2" 3 []
        ("pgcrypto",
          { name := "pgcrypto", source := "alias", «alias» := some "postgresql",
            kind := "core" }) =
      some (mkRow "pgcrypto"
        { name := "pgcrypto", source := "alias", «alias» := some "postgresql",
          kind := "core" }
        (some "1.3") (some "16.2"), [], [])) ∧
    ∀ (h2 : 0 < 1),
      (([⟨"pgcrypto", "1.3", "16.2", "outdated", "postgresql"⟩] :
        List VersionRecord).get ⟨0, h2⟩).latest_version = "16.2" := by
  constructor
  · have h := (c8_core_latest_is_server.1 coreCfgs (fun _ => none)
      (fun n => if n == "pgcrypto" then some "1.3" else none) "16.2" 3 []
      "pgcrypto"
      { name := "pgcrypto", source := "alias", «alias» := some "postgresql",
        kind := "core" } rfl).1
    simpa using h
  · intro h2
    exact (c8_core_latest_is_server.2 coreCfgs (fun _ => none)
      (fun n => if n == "pgcrypto" then some "1.3" else none) "16.2" 3
      [⟨"pgcrypto", "1.3", "16.2", "outdated", "postgresql"⟩]
      [("postgresql", some "16.2")] [] (by decide) 0 (by decide) h2 rfl)

/-- Claim C9 (counterexample): for a `kind = "core"` component the
`installed_version` of the output row does not mirror the server
version: with server version `"16.2"` and `pgcrypto` installed at
`"1.3"`, the row reports `"1.3"` (and is even classified `outdated`
against the server-version latest). -/
theorem c9_counterexample :
    reconcile coreCfgs (fun _ => none)
        (fun n => if n == "pgcrypto" then some "1.3" else none) "16.2" 3 =
      some ([⟨"pgcrypto", "1.3", "16.2", "outdated", "postgresql"⟩],
        [("postgresql", some "16.2")], []) ∧
    ("1.3" : String) ≠ "16.2" := by
  constructor
  · decide
  · decide

/-- Claim C9 (amended): for a `kind = "core"` catalog entry only the
latest version mirrors the server version; the installed version is
taken from the installed-versions mapping under the component's name
(empty when absent), exactly as for ordinary extensions. -/
theorem c9_core_installed_from_mapping :
    ∀ (cfgs : List (String × ComponentConfig)) (fetch : String → Option String)
      (inst : String → Option String) (sv : String) (fuel : Nat)
      (cache : List (String × Option String)) (name : String)
      (cfg : ComponentConfig),
      cfg.kind = "core" →
      processEntry cfgs fetch inst sv fuel cache (name, cfg) =
        some (mkRow name cfg (inst name) (some sv), cache, []) ∧
      (mkRow name cfg (inst name) (some sv)).installed_version =
        (inst name).getD "" := by
  intro cfgs fetch inst sv fuel cache name cfg h
  exact ⟨processEntry_core cfgs fetch inst sv fuel cache name cfg h, rfl⟩

/-- Claim C9 (witness): the amended theorem at concrete inputs; the
installed version comes from the mapping (`"1.3"`), not the server. -/
theorem c9_core_installed_from_mapping_witness :
    processEntry coreCfgs (fun _ => none)
        (fun n => if n == "pgcrypto" then some "1.3" else none) "16.2" 3 []
        ("pgcrypto",
          { name := "pgcrypto", source := "alias", «alias» := some "postgresql",
            kind := "core" }) =
      some (mkRow "pgcrypto"
        { name := "pgcrypto", source := "alias", «alias» := some "postgresql",
          kind := "core" }
        (some "1.3") (some "16.2"), [], []) ∧
    (mkRow "pgcrypto"
      { name := "pgcrypto", source := "alias", «alias» := some "postgresql",
        kind := "core" }
      (some "1.3") (some "16.2")).installed_version = "1.3" := by
  have h := c9_core_installed_from_mapping coreCfgs (fun _ => none)
    (fun n => if n == "pgcrypto" then some "1.3" else none) "16.2" 3 []
    "pgcrypto"
    { name := "pgcrypto", source := "alias", «alias» := some "postgresql",
      kind := "core" } rfl
  constructor
  · have h1 := h.1
    simpa using h1
  · have h2 := h.2
    simpa using h2

/-- Claim C1: the main loop yields exactly one row per catalog entry, in
catalog order, for every catalog, installed mapping, server version and
fetch oracle on which resolution terminates; on the real catalog it
terminates for every oracle (in particular the all-failing one); and a
failed fetch for a `github` component only makes that component's latest
version absent (the resolver still returns a row-ready result). -/
theorem c1_one_row_per_entry :
    (∀ (cfgs : List (String × ComponentConfig)) (fetch : String → Option String)
       (inst : String → Option String) (sv : String) (fuel : Nat)
       (rows : List VersionRecord) (c : List (String × Option String))
       (log : List String),
       reconcile cfgs fetch inst sv fuel = some (rows, c, log) →
       rows.map (fun r => r.component) = cfgs.map (fun e => e.1)) ∧
    (∀ (fetch : String → Option String) (inst : String → Option String)
       (sv : String) (f : Nat),
       ∃ out, reconcile CONFIG fetch inst sv (f + 2) = some out) ∧
    (∀ (cfgs : List (String × ComponentConfig)) (fetch : String → Option String)
       (f : Nat) (comp : String) (cfg : ComponentConfig)
       (cache : List (String × Option String)),
       lookupA cache comp = none →
       lookupA cfgs comp = some cfg →
       cfg.source = "github" → truthyS cfg.repo = true →
       fetch (cfg.repo.getD "") = none →
       resolve_latest cfgs fetch (f + 1) comp cache =
         some (none, cacheIns cache comp none, [cfg.repo.getD ""])) := by
  refine ⟨?_, ?_, ?_⟩
  · intro cfgs fetch inst sv fuel rows c log h
    exact reconcileAux_components cfgs fetch inst sv fuel cfgs _ rows c log h
  · intro fetch inst sv f
    exact reconcileAux_total CONFIG fetch inst sv (by decide) f CONFIG
      (cacheIns [] "postgresql" (normalize_version sv none))
  · intro cfgs fetch f comp cfg cache hc hg hs hrt hfetch
    have hcond : (cfg.source == "alias" && truthyS cfg.«alias») = false := by
      rw [hs]; rfl
    have hcond2 : (cfg.source == "github" && truthyS cfg.repo) = true := by
      rw [hs, hrt]; rfl
    rw [show f + 1 = Nat.succ f from rfl, resolve_latest]
    simp only [hc, hg, hcond, Bool.false_eq_true, if_false, hcond2, if_true,
      hfetch]
    rfl

/-- Claim C1 (witness): the shape statement applied to a completed run
of the dangling-alias catalog, termination of the real catalog under the
all-failing oracle, and a failed fetch on a concrete `github`
component. -/
theorem c1_one_row_per_entry_witness :
    ([⟨"a", "1.0", "", "unknown", "ghost"⟩] : List VersionRecord).map
        (fun r => r.component) = danglingCfgs.map (fun e => e.1) ∧
    (∃ out, reconcile CONFIG (fun _ => none) (fun _ => none) "16.2" (1 + 2) =
      some out) ∧
    resolve_latest ghCfgs (fun _ => none) 1 "g" [] =
      some (none, cacheIns [] "g" none, ["owner/repo"]) := by
  refine ⟨?_, ?_, ?_⟩
  · exact c1_one_row_per_entry.1 danglingCfgs (fun _ => none) (fun _ => some "1.0")
      "16.2" 3 [⟨"a", "1.0", "", "unknown", "ghost"⟩]
      [("a", none), ("ghost", none), ("postgresql", some "16.2")] [] (by decide)
  · exact c1_one_row_per_entry.2.1 (fun _ => none) (fun _ => none) "16.2" 1
  · exact c1_one_row_per_entry.2.2 ghCfgs (fun _ => none) 0 "g"
      { name := "g", source := "github", repo := some "owner/repo" } [] rfl rfl rfl
      rfl rfl

/-- Claim C5 (counterexample): two present strings with no digit runs at
all are classified `current`, not `unknown`: the digit-run fallback
yields the empty sequence for both and the empty-vs-empty comparison is
not `<`, so `compare_versions "abc" "def" = "current"`. -/
theorem c5_counterexample :
    split_digits "abc" = [] ∧ split_digits "def" = [] ∧
    compare_versions (some "abc") (some "def") = "current" := by
  refine ⟨?_, ?_, ?_⟩ <;> decide

/-- Claim C5 (amended): `compare_versions` never raises and never falls
back to `unknown` for two present (nonempty) strings: a string that
cannot be decomposed into digit runs simply contributes the empty
sequence, and the result is always `outdated` or `current`; `unknown`
arises only from an absent or empty latest. -/
theorem c5_present_pair_never_unknown :
    ∀ (i l : String), i ≠ "" → l ≠ "" →
      compare_versions (some i) (some l) = "outdated" ∨
      compare_versions (some i) (some l) = "current" := by
  intro i l hi hl
  have hti : (!truthyS (some i)) = false := by simp [truthyS, hi]
  have htl : (!truthyS (some l)) = false := by simp [truthyS, hl]
  rw [compare_versions]
  simp only [hti, htl, Bool.false_eq_true, if_false]
  cases hp1 : pepParseS ((some i).getD "") with
  | some k1 =>
    cases hp2 : pepParseS ((some l).getD "") with
    | some k2 =>
      simp only [hp1, hp2]
      by_cases hlt : pepLt k1 k2 = true
      · left; simp [hlt]
      · right; simp [hlt]
    | none =>
      simp only [hp1, hp2]
      by_cases hlt : listLtNat (split_digits i) (split_digits l) = true
      · left; simp [hlt]
      · right; simp [hlt]
  | none =>
    simp only [hp1]
    by_cases hlt : listLtNat (split_digits i) (split_digits l) = true
    · left; simp [hlt]
    · right; simp [hlt]

/-- Claim C5 (witness): the amended theorem at the digit-free pair. -/
theorem c5_present_pair_never_unknown_witness :
    compare_versions (some "abc") (some "def") = "outdated" ∨
    compare_versions (some "abc") (some "def") = "current" :=
  c5_present_pair_never_unknown "abc" "def" (by decide) (by decide)

theorem toNat_ofNat_valid (n : Nat) (h : n < 55296) : (Char.ofNat n).toNat = n := by
  rw [Char.ofNat, dif_pos (Or.inl h)]
  rfl

theorem char_eq_iff_toNat (c d : Char) : c = d ↔ c.toNat = d.toNat := by
  constructor
  · intro h; rw [h]
  · intro h
    exact Char.eq_of_val_eq (UInt32.ext h)

theorem toLower_toNat (c : Char) :
    c.toLower.toNat = if 65 ≤ c.toNat ∧ c.toNat ≤ 90 then c.toNat + 32 else c.toNat := by
  rw [Char.toLower]
  split
  · next h => exact toNat_ofNat_valid _ (by omega)
  · rfl

theorem isDigit_iff_toNat (c : Char) :
    c.isDigit = true ↔ 48 ≤ c.toNat ∧ c.toNat ≤ 57 := by
  rw [Char.isDigit, Bool.and_eq_true, decide_eq_true_iff, decide_eq_true_iff]
  exact Iff.rfl

theorem isWS_iff_toNat (c : Char) :
    isWS c = true ↔ (c.toNat = 32 ∨ c.toNat = 9 ∨ c.toNat = 10 ∨ c.toNat = 13 ∨
      c.toNat = 11 ∨ c.toNat = 12) := by
  rw [isWS]
  simp only [Bool.or_eq_true, decide_eq_true_iff]
  rw [char_eq_iff_toNat c ' ', char_eq_iff_toNat c '\t', char_eq_iff_toNat c '\n',
    char_eq_iff_toNat c '\r', char_eq_iff_toNat c '\x0b', char_eq_iff_toNat c '\x0c']
  simp only [show ' '.toNat = 32 from rfl, show '\t'.toNat = 9 from rfl,
    show '\n'.toNat = 10 from rfl, show '\r'.toNat = 13 from rfl,
    show '\x0b'.toNat = 11 from rfl, show '\x0c'.toNat = 12 from rfl]
  tauto

theorem toLower_eq_self_of_small (c : Char) (h : ¬(65 ≤ c.toNat ∧ c.toNat ≤ 90)) :
    c.toLower = c := by
  rw [char_eq_iff_toNat, toLower_toNat, if_neg h]

theorem toLower_of_digit (c : Char) (h : c.isDigit = true) : c.toLower = c := by
  have := (isDigit_iff_toNat c).mp h
  exact toLower_eq_self_of_small c (by omega)

theorem isWS_toLower (c : Char) : isWS c.toLower = isWS c := by
  have h1 := isWS_iff_toNat c.toLower
  have h2 := isWS_iff_toNat c
  have h3 := toLower_toNat c
  by_cases hc : 65 ≤ c.toNat ∧ c.toNat ≤ 90
  · rw [if_pos hc] at h3
    have e1 : isWS c.toLower = false := by
      cases he : isWS c.toLower
      · rfl
      · exfalso; have := h1.mp he; omega
    have e2 : isWS c = false := by
      cases he : isWS c
      · rfl
      · exfalso; have := h2.mp he; omega
    rw [e1, e2]
  · rw [if_neg hc] at h3
    rw [(char_eq_iff_toNat c.toLower c).mpr h3]

theorem isDigit_toLower (c : Char) : c.toLower.isDigit = c.isDigit := by
  have h1 := isDigit_iff_toNat c.toLower
  have h2 := isDigit_iff_toNat c
  have h3 := toLower_toNat c
  by_cases hc : 65 ≤ c.toNat ∧ c.toNat ≤ 90
  · rw [if_pos hc] at h3
    have e1 : c.toLower.isDigit = false := by
      cases he : c.toLower.isDigit
      · rfl
      · exfalso; have := h1.mp he; omega
    have e2 : c.isDigit = false := by
      cases he : c.isDigit
      · rfl
      · exfalso; have := h2.mp he; omega
    rw [e1, e2]
  · rw [if_neg hc] at h3
    rw [(char_eq_iff_toNat c.toLower c).mpr h3]

theorem uCh_toNat (c : Char) :
    (uCh c).toNat = if c.toNat = 95 then 46 else c.toNat := by
  rw [uCh]
  by_cases h : c = '_'
  · rw [if_pos h, if_pos]
    · rfl
    · rw [(char_eq_iff_toNat c '_').mp h]; rfl
  · rw [if_neg h, if_neg]
    intro hcon
    exact h ((char_eq_iff_toNat c '_').mpr hcon)

theorem isDigit_uCh (c : Char) : (uCh c).isDigit = c.isDigit := by
  have h1 := isDigit_iff_toNat (uCh c)
  have h2 := isDigit_iff_toNat c
  have h3 := uCh_toNat c
  by_cases hc : c.toNat = 95
  · rw [if_pos hc] at h3
    have e1 : (uCh c).isDigit = false := by
      cases he : (uCh c).isDigit
      · rfl
      · exfalso; have := h1.mp he; omega
    have e2 : c.isDigit = false := by
      cases he : c.isDigit
      · rfl
      · exfalso; have := h2.mp he; omega
    rw [e1, e2]
  · rw [if_neg hc] at h3
    rw [(char_eq_iff_toNat (uCh c) c).mpr h3]

theorem isWS_uCh (c : Char) : isWS (uCh c) = isWS c := by
  have h1 := isWS_iff_toNat (uCh c)
  have h2 := isWS_iff_toNat c
  have h3 := uCh_toNat c
  by_cases hc : c.toNat = 95
  · rw [if_pos hc] at h3
    have e1 : isWS (uCh c) = false := by
      cases he : isWS (uCh c)
      · rfl
      · exfalso; have := h1.mp he; omega
    have e2 : isWS c = false := by
      cases he : isWS c
      · rfl
      · exfalso; have := h2.mp he; omega
    rw [e1, e2]
  · rw [if_neg hc] at h3
    rw [(char_eq_iff_toNat (uCh c) c).mpr h3]

theorem uCh_toLower (c : Char) : uCh c.toLower = (uCh c).toLower := by
  rw [char_eq_iff_toNat, uCh_toNat, toLower_toNat, toLower_toNat (uCh c), uCh_toNat]
  split_ifs <;> omega

theorem uCh_eq_of_ne (c : Char) (h : ¬c = '_') : uCh c = c := by
  rw [uCh, if_neg h]

theorem digitVal_uCh (c : Char) (h : c.isDigit = true) : uCh c = c := by
  apply uCh_eq_of_ne
  intro hcon
  rw [hcon] at h
  cases h

theorem trimR_cons (c : Char) (cs : List Char) (h : isWS c = false) :
    trimR (c :: cs) = c :: trimR cs := by
  rw [trimR, trimR, List.reverse_cons, trimL, trimL, List.dropWhile_append]
  split
  · next he =>
    have h0 : List.dropWhile isWS cs.reverse = [] := by simpa using he
    rw [h0, List.dropWhile_cons, h]
    simp
  · rw [List.reverse_append]
    simp

theorem trimR_ne_nil (c : Char) (cs : List Char) (h : isWS c = false) :
    trimR (c :: cs) ≠ [] := by
  rw [trimR_cons c cs h]
  simp

theorem lstripVV_replicate (k : Nat) (c : Char) (t : List Char)
    (h : (c = 'v' || c = 'V') = false) :
    lstripVV (List.replicate k 'v' ++ c :: t) = c :: t := by
  induction k with
  | zero =>
    rw [List.replicate_zero, List.nil_append, lstripVV, List.dropWhile_cons, h]
    simp
  | succ n ih =>
    rw [List.replicate_succ, List.cons_append, lstripVV, List.dropWhile_cons]
    simp only [show (('v' : Char) = 'v' || ('v' : Char) = 'V') = true from rfl, if_true]
    exact ih

theorem subREL_short (cs : List Char) (h : ∀ r e l s rest, cs ≠ r :: e :: l :: s :: rest) :
    subREL cs = cs := by
  rcases cs with _ | ⟨a, _ | ⟨b, _ | ⟨c, _ | ⟨d, rest⟩⟩⟩⟩
  · rfl
  · rfl
  · rfl
  · rfl
  · exact absurd rfl (h a b c d rest)

theorem subREL_of_not_r (c : Char) (cs : List Char) (h : ¬c.toLower = 'r') :
    subREL (c :: cs) = c :: cs := by
  rcases cs with _ | ⟨e, _ | ⟨l, _ | ⟨s, rest⟩⟩⟩
  · rfl
  · rfl
  · rfl
  · rw [subREL]
    simp [h]

theorem subVER_of_not_v (c : Char) (cs : List Char) (h : ¬c.toLower = 'v') :
    subVER (c :: cs) = c :: cs := by
  rcases cs with _ | ⟨e, _ | ⟨l, _ | ⟨s, rest⟩⟩⟩
  · rfl
  · rfl
  · rfl
  · rw [subVER]
    simp [h]

theorem subVER_of_not_e (c e : Char) (cs : List Char) (h : ¬e.toLower = 'e') :
    subVER (c :: e :: cs) = c :: e :: cs := by
  rcases cs with _ | ⟨l, _ | ⟨s, rest⟩⟩
  · rfl
  · rfl
  · rw [subVER]
    simp [h]

theorem isWS_of_digit (c : Char) (h : c.isDigit = true) : isWS c = false := by
  have hb := (isDigit_iff_toNat c).mp h
  cases he : isWS c
  · rfl
  · exfalso
    have := (isWS_iff_toNat c).mp he
    omega

theorem mk_beq_empty_false (xs : List Char) (h : xs ≠ []) :
    (String.mk xs == "") = false := by
  cases hb : (String.mk xs == "")
  · rfl
  · exfalso
    have he : String.mk xs = "" := by
      exact eq_of_beq hb
    apply h
    have : (String.mk xs).data = ("" : String).data := by rw [he]
    simpa using this

theorem trimR_replicate_v (k : Nat) (c : Char) (cs : List Char)
    (h : isWS c = false) :
    trimR (List.replicate k 'v' ++ c :: cs) =
      List.replicate k 'v' ++ c :: trimR cs := by
  induction k with
  | zero =>
    rw [List.replicate_zero, List.nil_append, List.nil_append]
    exact trimR_cons c cs h
  | succ n ih =>
    rw [List.replicate_succ, List.cons_append, List.cons_append,
      trimR_cons 'v' _ (by decide), ih]

theorem dropWhile_idem (p : Char → Bool) (l : List Char) :
    List.dropWhile p (List.dropWhile p l) = List.dropWhile p l := by
  induction l with
  | nil => rfl
  | cons c t ih =>
    rw [List.dropWhile_cons]
    split
    · exact ih
    · next hp =>
      rw [List.dropWhile_cons, if_neg hp]

theorem trimR_trimR (l : List Char) : trimR (trimR l) = trimR l := by
  rw [trimR, trimR, trimL, trimL, List.reverse_reverse, dropWhile_idem]

theorem trimR_map_uCh (l : List Char) :
    trimR (List.map uCh l) = List.map uCh (trimR l) := by
  rw [trimR, trimR, trimL, trimL, ← List.map_reverse, List.dropWhile_map,
    ← List.map_reverse]
  have hfun : (isWS ∘ uCh) = isWS := by
    funext c
    exact isWS_uCh c
  rw [hfun]

/-- Claim C3 (counterexample): the code strips ALL leading `v`/`V`
characters (`tag.lstrip("vV")`), not a single one:
`normalize_version "vv1.0"` yields `"1.0"`, where stripping a single
leading `v` would yield `"v1.0"`. -/
theorem c3_counterexample :
    normalize_version "vv1.0" none = some "1.0" ∧
    normalize_version "vv1.0" none ≠ some "v1.0" := by
  constructor
  · decide
  · decide

/-- Claim C3 (amended): the pipeline is as described except that all
leading `v`/`V` characters are stripped.  The three examples hold, and
in general a tag made of any number of leading `v`s followed by a digit
normalizes to the digit-headed remainder with underscores turned into
periods and trailing whitespace trimmed. -/
theorem c3_normalize_amended :
    normalize_version "REL_3_4_1" none = some "3.4.1" ∧
    normalize_version "v2.0.0" none = some "2.0.0" ∧
    normalize_version "ver-1.2" (some (verPatSearch false)) = some "1.2" ∧
    ∀ (k : Nat) (c : Char) (cs : List Char), c.isDigit = true →
      normalize_version (String.mk (List.replicate k 'v' ++ c :: cs)) none =
        some (String.mk (List.map uCh (c :: trimR cs))) := by
  refine ⟨by decide, by decide, by decide, ?_⟩
  intro k c cs hc
  have hbc := (isDigit_iff_toNat c).mp hc
  have hwc : isWS c = false := isWS_of_digit c hc
  have hlc : c.toLower = c := toLower_of_digit c hc
  have hlist : List.replicate k 'v' ++ c :: cs ≠ [] := by
    intro h
    have := congrArg List.length h
    simp at this
  have e0 : normalize_version (String.mk (List.replicate k 'v' ++ c :: cs)) none =
      normFinish (List.replicate k 'v' ++ c :: cs) := by
    unfold normalize_version
    rw [mk_beq_empty_false _ hlist]
    simp only [Bool.false_eq_true, if_false]
    rfl
  have e1 : pyStrip (List.replicate k 'v' ++ c :: cs) =
      List.replicate k 'v' ++ c :: trimR cs := by
    rw [pyStrip]
    have htl : trimL (List.replicate k 'v' ++ c :: cs) =
        List.replicate k 'v' ++ c :: cs := by
      cases k with
      | zero =>
        rw [List.replicate_zero, List.nil_append, trimL, List.dropWhile_cons, hwc]
        simp
      | succ n =>
        rw [List.replicate_succ, List.cons_append, trimL, List.dropWhile_cons,
          show isWS 'v' = false from rfl]
        simp
    rw [htl]
    exact trimR_replicate_v k c cs hwc
  have e2 : subREL (List.replicate k 'v' ++ c :: trimR cs) =
      List.replicate k 'v' ++ c :: trimR cs := by
    cases k with
    | zero =>
      rw [List.replicate_zero, List.nil_append]
      apply subREL_of_not_r
      rw [hlc]
      intro h
      rw [char_eq_iff_toNat, show ('r').toNat = 114 from rfl] at h
      omega
    | succ n =>
      rw [List.replicate_succ, List.cons_append]
      apply subREL_of_not_r
      decide
  have e3 : subVER (List.replicate k 'v' ++ c :: trimR cs) =
      List.replicate k 'v' ++ c :: trimR cs := by
    match k with
    | 0 =>
      rw [List.replicate_zero, List.nil_append]
      apply subVER_of_not_v
      rw [hlc]
      intro h
      rw [char_eq_iff_toNat, show ('v').toNat = 118 from rfl] at h
      omega
    | 1 =>
      rw [show List.replicate 1 'v' ++ c :: trimR cs = 'v' :: c :: trimR cs from rfl]
      apply subVER_of_not_e
      rw [hlc]
      intro h
      rw [char_eq_iff_toNat, show ('e').toNat = 101 from rfl] at h
      omega
    | Nat.succ (Nat.succ m) =>
      rw [List.replicate_succ, List.replicate_succ, List.cons_append,
        List.cons_append]
      apply subVER_of_not_e
      decide
  have hv : (c = 'v' || c = 'V') = false := by
    cases hd : (c = 'v' || c = 'V')
    · rfl
    · exfalso
      rw [Bool.or_eq_true] at hd
      rcases hd with hd | hd
      · rw [decide_eq_true_iff] at hd
        rw [hd] at hc
        exact absurd hc (by decide)
      · rw [decide_eq_true_iff] at hd
        rw [hd] at hc
        exact absurd hc (by decide)
  have e4 : lstripVV (List.replicate k 'v' ++ c :: trimR cs) = c :: trimR cs :=
    lstripVV_replicate k c (trimR cs) hv
  have e5 : pyStrip (List.map uCh (c :: trimR cs)) =
      List.map uCh (c :: trimR cs) := by
    rw [pyStrip]
    have htl : trimL (List.map uCh (c :: trimR cs)) =
        List.map uCh (c :: trimR cs) := by
      rw [List.map_cons, trimL, List.dropWhile_cons, digitVal_uCh c hc, hwc]
      simp
    rw [htl, trimR_map_uCh, trimR_cons c _ hwc, trimR_trimR]
  rw [e0, normFinish, normCore, e1, e2, e3, e4, e5]
  simp

/-- Claim C3 (witness): the general conjunct of the amended theorem at
the counterexample's input. -/
theorem c3_normalize_amended_witness :
    normalize_version (String.mk (List.replicate 2 'v' ++ '1' :: ['.', '0'])) none =
      some (String.mk (List.map uCh ('1' :: trimR ['.', '0']))) :=
  c3_normalize_amended.2.2.2 2 '1' ['.', '0'] (by decide)

theorem uCh_eq_iff (c d : Char) (hc : ¬c = '.') (hc2 : ¬c = '_') :
    uCh d = c ↔ d = c := by
  constructor
  · intro h
    rw [uCh] at h
    split at h
    · exact absurd h.symm hc
    · exact h
  · intro h
    subst h
    rw [uCh, if_neg hc2]

theorem isSep_uCh (c : Char) : isSep (uCh c) = isSep c := by
  have h1 := uCh_toNat c
  by_cases hc : c.toNat = 95
  · rw [if_pos hc] at h1
    have e1 : uCh c = '.' := (char_eq_iff_toNat _ '.').mpr (by rw [h1]; rfl)
    have e2 : c = '_' := (char_eq_iff_toNat c '_').mpr (by rw [hc]; rfl)
    rw [e1, e2]
    decide
  · rw [if_neg hc] at h1
    rw [(char_eq_iff_toNat (uCh c) c).mpr h1]

theorem isAlnumLow_uCh (c : Char) : isAlnumLow (uCh c) = isAlnumLow c := by
  by_cases hc : c = '_'
  · subst hc
    decide
  · rw [uCh_eq_of_ne c hc]

theorem takeDigits_map_uCh (cs : List Char) :
    takeDigits (List.map uCh cs) =
      ((takeDigits cs).1, List.map uCh (takeDigits cs).2) := by
  induction cs with
  | nil => rfl
  | cons c t ih =>
    rw [List.map_cons, takeDigits, takeDigits, isDigit_uCh]
    by_cases hd : c.isDigit = true
    · rw [if_pos hd, if_pos hd, ih, digitVal_uCh c hd]
    · rw [if_neg hd, if_neg hd, List.map_cons]

theorem takeAlnum_map_uCh (cs : List Char) :
    takeAlnum (List.map uCh cs) =
      ((takeAlnum cs).1, List.map uCh (takeAlnum cs).2) := by
  induction cs with
  | nil => rfl
  | cons c t ih =>
    rw [List.map_cons, takeAlnum, takeAlnum, isAlnumLow_uCh]
    by_cases hd : isAlnumLow c = true
    · have huc : uCh c = c := by
        apply uCh_eq_of_ne
        intro hcon
        rw [hcon] at hd
        exact absurd hd (by decide)
      rw [if_pos hd, if_pos hd, ih, huc]
    · rw [if_neg hd, if_neg hd, List.map_cons]

theorem dropSep_map_uCh (cs : List Char) :
    dropSep (List.map uCh cs) = List.map uCh (dropSep cs) := by
  cases cs with
  | nil => rfl
  | cons c t =>
    rw [List.map_cons, dropSep, dropSep, isSep_uCh]
    by_cases hs : isSep c = true
    · rw [if_pos hs, if_pos hs]
    · rw [if_neg hs, if_neg hs, List.map_cons]

theorem matchLit_map_uCh (lit : List Char) (hlit : ∀ c ∈ lit, ¬c = '.' ∧ ¬c = '_') :
    ∀ cs : List Char,
      matchLit lit (List.map uCh cs) = (matchLit lit cs).map (List.map uCh) := by
  induction lit with
  | nil => intro cs; rfl
  | cons l ls ih =>
    intro cs
    cases cs with
    | nil => rfl
    | cons d t =>
      rw [List.map_cons, matchLit, matchLit]
      have hl := hlit l (List.mem_cons_self _ _)
      by_cases hd : d = l
      · have huc : uCh d = l := (uCh_eq_iff l d hl.1 hl.2).mpr hd
        rw [if_pos huc, if_pos hd,
          ih (fun c hc => hlit c (List.mem_cons_of_mem _ hc)) t]
      · have huc : ¬uCh d = l := fun hcon => hd ((uCh_eq_iff l d hl.1 hl.2).mp hcon)
        rw [if_neg huc, if_neg hd]
        rfl

theorem matchAny_map_uCh (ls : List (List Char × Nat))
    (hls : ∀ p ∈ ls, ∀ c ∈ p.1, ¬c = '.' ∧ ¬c = '_') :
    ∀ cs : List Char,
      matchAny ls (List.map uCh cs) =
        (matchAny ls cs).map (fun p => (p.1, List.map uCh p.2)) := by
  induction ls with
  | nil => intro cs; rfl
  | cons p rest ih =>
    intro cs
    obtain ⟨lit, r⟩ := p
    rw [matchAny, matchAny, matchLit_map_uCh lit (hls _ (List.mem_cons_self _ _)) cs]
    cases hm : matchLit lit cs with
    | some t => rfl
    | none =>
      simp only [Option.map_none]
      exact ih (fun q hq => hls q (List.mem_cons_of_mem _ hq)) cs

theorem matchPreLetter_map_uCh (cs : List Char) :
    matchPreLetter (List.map uCh cs) =
      (matchPreLetter cs).map (fun p => (p.1, List.map uCh p.2)) :=
  matchAny_map_uCh preLits (by decide) cs

theorem matchPostLetter_map_uCh (cs : List Char) :
    matchPostLetter (List.map uCh cs) =
      (matchPostLetter cs).map (List.map uCh) := by
  rw [matchPostLetter, matchPostLetter, matchAny_map_uCh postLits (by decide) cs]
  cases matchAny postLits cs with
  | none => rfl
  | some p => rfl

theorem parsePre_map_uCh (cs : List Char) :
    parsePre (List.map uCh cs) =
      ((parsePre cs).1, List.map uCh (parsePre cs).2) := by
  rw [parsePre, parsePre, dropSep_map_uCh, matchPreLetter_map_uCh]
  cases hm : matchPreLetter (dropSep cs) with
  | none => rfl
  | some p =>
    obtain ⟨r, c2⟩ := p
    simp only [Option.map_some, Option.map_some']
    rw [dropSep_map_uCh, takeDigits_map_uCh]


theorem uCh_lit_iff (c x : Char) (h1 : ¬x = '.') (h2 : ¬x = '_') :
    (uCh c = x) = (c = x) := by
  apply propext
  exact uCh_eq_iff x c h1 h2

theorem parsePost_map_uCh (cs : List Char) :
    parsePost (List.map uCh cs) =
      ((parsePost cs).1, List.map uCh (parsePost cs).2) := by
  have halt2 : ∀ ds : List Char,
      (match matchPostLetter (dropSep (List.map uCh ds)) with
        | none => ((none : Option Nat), List.map uCh ds)
        | some c2 =>
          let p := takeDigits (dropSep c2)
          (some (natOfDigits p.1), p.2)) =
      ((match matchPostLetter (dropSep ds) with
        | none => ((none : Option Nat), ds)
        | some c2 =>
          let p := takeDigits (dropSep c2)
          (some (natOfDigits p.1), p.2)).1,
        List.map uCh (match matchPostLetter (dropSep ds) with
        | none => ((none : Option Nat), ds)
        | some c2 =>
          let p := takeDigits (dropSep c2)
          (some (natOfDigits p.1), p.2)).2) := by
    intro ds
    rw [dropSep_map_uCh, matchPostLetter_map_uCh]
    cases hm : matchPostLetter (dropSep ds) with
    | none => rfl
    | some c2 =>
      simp only [Option.map_some, Option.map_some']
      rw [dropSep_map_uCh, takeDigits_map_uCh]
  cases cs with
  | nil => exact halt2 []
  | cons c t =>
    rw [List.map_cons, parsePost, parsePost]
    by_cases hc : c = '-'
    · have huc : uCh c = '-' := (uCh_eq_iff '-' c (by decide) (by decide)).mpr hc
      rw [if_pos huc, if_pos hc, takeDigits_map_uCh]
      cases ht : takeDigits t with
      | mk ds r =>
        cases ds with
        | nil =>
          simp only []
          have := halt2 (c :: t)
          rw [List.map_cons] at this
          exact this
        | cons d ds2 => rfl
    · have huc : ¬uCh c = '-' :=
        fun h => hc ((uCh_eq_iff '-' c (by decide) (by decide)).mp h)
      rw [if_neg huc, if_neg hc]
      have := halt2 (c :: t)
      rw [List.map_cons] at this
      exact this

theorem parseDev_map_uCh (cs : List Char) :
    parseDev (List.map uCh cs) =
      ((parseDev cs).1, List.map uCh (parseDev cs).2) := by
  rw [parseDev, parseDev, dropSep_map_uCh,
    matchLit_map_uCh ['d','e','v'] (by decide)]
  cases hm : matchLit ['d','e','v'] (dropSep cs) with
  | none => rfl
  | some c2 =>
    simp only [Option.map_some, Option.map_some']
    rw [dropSep_map_uCh, takeDigits_map_uCh]

theorem segLoopF_map_uCh (f : Nat) :
    ∀ cs : List Char,
      segLoopF f (List.map uCh cs) =
        ((segLoopF f cs).1, List.map uCh (segLoopF f cs).2) := by
  induction f with
  | zero => intro cs; rfl
  | succ n ih =>
    intro cs
    cases cs with
    | nil => rfl
    | cons c t =>
      rw [List.map_cons, segLoopF, segLoopF, isSep_uCh]
      by_cases hs : isSep c = true
      · rw [if_pos hs, if_pos hs, takeAlnum_map_uCh]
        cases ht : takeAlnum t with
        | mk sg r =>
          cases sg with
          | nil => rfl
          | cons s0 sg2 =>
            simp only []
            rw [ih r]
      · rw [if_neg hs, if_neg hs, List.map_cons]

theorem parseLoc_map_uCh (cs : List Char) :
    parseLoc (List.map uCh cs) =
      ((parseLoc cs).1, List.map uCh (parseLoc cs).2) := by
  cases cs with
  | nil => rfl
  | cons c t =>
    rw [List.map_cons, parseLoc, parseLoc]
    by_cases hc : c = '+'
    · have huc : uCh c = '+' := (uCh_eq_iff '+' c (by decide) (by decide)).mpr hc
      rw [if_pos huc, if_pos hc, takeAlnum_map_uCh]
      cases ht : takeAlnum t with
      | mk sg r =>
        cases sg with
        | nil => rfl
        | cons s0 sg2 =>
          simp only []
          rw [List.length_map, segLoopF_map_uCh]
    · have huc : ¬uCh c = '+' :=
        fun h => hc ((uCh_eq_iff '+' c (by decide) (by decide)).mp h)
      rw [if_neg huc, if_neg hc, List.map_cons]

theorem relLoopF_map_uCh (f : Nat) :
    ∀ cs : List Char, uDig (relLoopF f cs).2 = false →
      relLoopF f (List.map uCh cs) =
        ((relLoopF f cs).1, List.map uCh (relLoopF f cs).2) := by
  induction f with
  | zero => intro cs _; rfl
  | succ n ih =>
    intro cs hg
    cases cs with
    | nil => rfl
    | cons c t =>
      rw [List.map_cons, relLoopF, relLoopF]
      by_cases hc : c = '.'
      · have huc : uCh c = '.' := by rw [uCh, if_neg (by rw [hc]; decide)]; exact hc
        rw [if_pos huc, if_pos hc, takeDigits_map_uCh]
        cases ht : takeDigits t with
        | mk ds r =>
          cases ds with
          | nil => simp only []; rw [List.map_cons]
          | cons d ds2 =>
            simp only []
            rw [relLoopF, ht] at hg
            rw [if_pos hc] at hg
            simp only [] at hg
            rw [ih r hg]
      · by_cases hcu : c = '_'
        · -- mapped head becomes '.'; the original stops here, and the
          -- guard says the next char is not a digit, so the mapped loop
          -- stops too.
          have huc : uCh c = '.' := by rw [hcu]; rfl
          rw [if_neg hc, if_pos huc]
          rw [relLoopF, if_neg hc] at hg
          simp only [] at hg
          cases t with
          | nil =>
            rw [show takeDigits (List.map uCh []) = ([], []) from rfl]
            rfl
          | cons d t2 =>
            rw [uDig] at hg
            have hd : d.isDigit = false := by
              rw [hcu] at hg
              simpa using hg
            rw [List.map_cons, takeDigits, isDigit_uCh, hd]
            simp only [Bool.false_eq_true, if_false]
            rfl
        · have huc : ¬uCh c = '.' := by
            rw [uCh, if_neg hcu]; exact hc
          rw [if_neg huc, if_neg hc, List.map_cons]

theorem matchAny_none_of_digit_head (ls : List (List Char × Nat))
    (hls : ∀ p ∈ ls, ∃ l0 lt, p.1 = l0 :: lt ∧ l0.isDigit = false)
    (d : Char) (t : List Char) (hd : d.isDigit = true) :
    matchAny ls (d :: t) = none := by
  induction ls with
  | nil => rfl
  | cons p rest ih =>
    obtain ⟨lit, r⟩ := p
    rw [matchAny]
    obtain ⟨l0, lt, hlit, h0⟩ := hls _ (List.mem_cons_self _ _)
    simp only [] at hlit
    subst hlit
    rw [matchLit]
    have hne : ¬d = l0 := by
      intro hcon
      rw [hcon] at hd
      rw [hd] at h0
      cases h0
    rw [if_neg hne]
    exact ih (fun q hq => hls q (List.mem_cons_of_mem _ hq))

theorem parseTail_stuck (d : Char) (t : List Char) (hd : d.isDigit = true) :
    parsePre ('_' :: d :: t) = (none, '_' :: d :: t) ∧
    parsePost ('_' :: d :: t) = (none, '_' :: d :: t) ∧
    parseDev ('_' :: d :: t) = (none, '_' :: d :: t) ∧
    parseLoc ('_' :: d :: t) = (none, '_' :: d :: t) := by
  have hds : dropSep ('_' :: d :: t) = d :: t := by
    rw [dropSep, if_pos]
    decide
  refine ⟨?_, ?_, ?_, ?_⟩
  · rw [parsePre, hds, matchPreLetter,
      matchAny_none_of_digit_head preLits (by intro p hp; fin_cases hp <;> exact ⟨_, _, rfl, by decide⟩) d t hd]
  · rw [parsePost]
    rw [if_neg (by decide : ¬('_' : Char) = '-')]
    rw [hds, matchPostLetter,
      matchAny_none_of_digit_head postLits (by intro p hp; fin_cases hp <;> exact ⟨_, _, rfl, by decide⟩) d t hd]
    rfl
  · rw [parseDev, hds, matchLit]
    have hne : ¬d = 'd' := by
      intro hcon
      rw [hcon] at hd
      exact absurd hd (by decide)
    rw [if_neg hne]
  · rw [parseLoc]
    rw [if_neg (by decide : ¬('_' : Char) = '+')]

theorem parseFromRelease_map_uCh (ep : Nat) (Z : List Char) (parts : RawParts)
    (h : parseFromRelease ep Z = some parts) :
    parseFromRelease ep (List.map uCh Z) = some parts := by
  rw [parseFromRelease] at h ⊢
  rw [takeDigits_map_uCh]
  cases hpr : takeDigits Z with
  | mk rds rr =>
    rw [hpr] at h
    simp only [] at h ⊢
    cases rds with
    | nil => cases h
    | cons r0 rds2 =>
      simp only [] at h ⊢
      rw [List.length_map]
      have hguard : uDig (relLoopF rr.length rr).2 = false := by
        cases hu : uDig (relLoopF rr.length rr).2 with
        | false => rfl
        | true =>
          exfalso
          cases hrl : (relLoopF rr.length rr).2 with
          | nil => rw [hrl] at hu; cases hu
          | cons a t1 =>
            cases t1 with
            | nil => rw [hrl] at hu; cases hu
            | cons d t2 =>
              rw [hrl] at hu
              rw [uDig, Bool.and_eq_true] at hu
              obtain ⟨ha, hd⟩ := hu
              have ha2 : a = '_' := by simpa using ha
              subst ha2
              obtain ⟨hr1, hr2, hr3, hr4⟩ := parseTail_stuck d t2 hd
              rw [hrl, hr1] at h
              simp only [] at h
              rw [hr2] at h
              simp only [] at h
              rw [hr3] at h
              simp only [] at h
              rw [hr4] at h
              simp only [List.isEmpty_cons] at h
              simp at h
      rw [relLoopF_map_uCh rr.length rr hguard]
      rw [parsePre_map_uCh, parsePost_map_uCh, parseDev_map_uCh, parseLoc_map_uCh]
      cases he : (parseLoc (parseDev (parsePost (parsePre
          (relLoopF rr.length rr).2).2).2).2).2 with
      | nil =>
        rw [he] at h
        simp only [List.isEmpty_nil, if_true] at h
        simp only [he, List.map_nil, List.isEmpty_nil, if_true]
        exact h
      | cons a t1 =>
        rw [he] at h
        simp at h

theorem parseAfterV_map_uCh (cs : List Char) (parts : RawParts)
    (h : parseAfterV cs = some parts) :
    parseAfterV (List.map uCh cs) = some parts := by
  rw [parseAfterV] at h ⊢
  rw [takeDigits_map_uCh]
  cases hpe : takeDigits cs with
  | mk eds er =>
    rw [hpe] at h
    simp only [] at h ⊢
    cases eds with
    | nil =>
      exact parseFromRelease_map_uCh 0 cs parts h
    | cons d ds =>
      cases er with
      | nil =>
        simp only [List.map_nil]
        exact parseFromRelease_map_uCh 0 cs parts h
      | cons x r =>
        rw [List.map_cons]
        have h2 : parseFromRelease
            (if x = '!' then (natOfDigits (d :: ds), r) else ((0 : Nat), cs)).1
            (if x = '!' then (natOfDigits (d :: ds), r) else ((0 : Nat), cs)).2 =
            some parts := h
        show parseFromRelease
          (if uCh x = '!' then (natOfDigits (d :: ds), List.map uCh r)
            else ((0 : Nat), List.map uCh cs)).1
          (if uCh x = '!' then (natOfDigits (d :: ds), List.map uCh r)
            else ((0 : Nat), List.map uCh cs)).2 = some parts
        by_cases hx : x = '!'
        · have hux : uCh x = '!' := (uCh_eq_iff '!' x (by decide) (by decide)).mpr hx
          rw [if_pos hx] at h2
          rw [if_pos hux]
          exact parseFromRelease_map_uCh _ r parts h2
        · have hux : ¬uCh x = '!' :=
            fun hcon => hx ((uCh_eq_iff '!' x (by decide) (by decide)).mp hcon)
          rw [if_neg hx] at h2
          rw [if_neg hux]
          exact parseFromRelease_map_uCh 0 cs parts h2

theorem not_digit_of_isWS (c : Char) (h : isWS c = true) : c.isDigit = false := by
  rw [isWS_iff_toNat] at h
  cases hd : c.isDigit with
  | false => rfl
  | true =>
    exfalso
    have := (isDigit_iff_toNat c).mp hd
    omega

theorem not_digit_of_toLower_eq (c x : Char) (hx : x.isDigit = false)
    (h : c.toLower = x) : c.isDigit = false := by
  cases hc : c.isDigit with
  | false => rfl
  | true =>
    exfalso
    rw [toLower_of_digit c hc] at h
    rw [h] at hc
    rw [hc] at hx
    cases hx

theorem digitRunsGo_map_uCh (cs : List Char) :
    ∀ acc, digitRunsGo (List.map uCh cs) acc = digitRunsGo cs acc := by
  induction cs with
  | nil => intro acc; rfl
  | cons c t ih =>
    intro acc
    have hgo : ∀ (x : Char) (t2 : List Char) (a : Option Nat),
        digitRunsGo (x :: t2) a =
          if x.isDigit then digitRunsGo t2 (some ((a.getD 0) * 10 + digitVal x))
          else match a with
            | some n => n :: digitRunsGo t2 none
            | none => digitRunsGo t2 none := fun _ _ _ => rfl
    rw [List.map_cons, hgo, hgo, isDigit_uCh]
    by_cases hc : c.isDigit = true
    · rw [if_pos hc, if_pos hc, digitVal_uCh c hc, ih]
    · rw [if_neg hc, if_neg hc]
      cases acc with
      | none => exact ih none
      | some n => rw [ih none]

theorem digitRunsGo_nd (ys : List Char) (h : ∀ c ∈ ys, c.isDigit = false) :
    ∀ acc, digitRunsGo ys acc = digitRunsGo [] acc := by
  induction ys with
  | nil => intro acc; rfl
  | cons c t ih =>
    intro acc
    have hc : c.isDigit = false := h c (List.mem_cons_self _ _)
    have ht : ∀ x ∈ t, x.isDigit = false :=
      fun x hx => h x (List.mem_cons_of_mem _ hx)
    have hgo : ∀ (a : Option Nat),
        digitRunsGo (c :: t) a =
          if c.isDigit then digitRunsGo t (some ((a.getD 0) * 10 + digitVal c))
          else match a with
            | some n => n :: digitRunsGo t none
            | none => digitRunsGo t none := fun _ => rfl
    rw [hgo, hc]
    simp only [Bool.false_eq_true, if_false]
    cases acc with
    | none => exact ih ht none
    | some n => rw [ih ht none]; rfl

theorem digitRunsGo_append_nd (ys : List Char) (h : ∀ c ∈ ys, c.isDigit = false) :
    ∀ (xs : List Char) acc, digitRunsGo (xs ++ ys) acc = digitRunsGo xs acc := by
  intro xs
  induction xs with
  | nil => intro acc; rw [List.nil_append]; exact digitRunsGo_nd ys h acc
  | cons x t ih =>
    intro acc
    have hgo : ∀ (l : List Char) (a : Option Nat),
        digitRunsGo (x :: l) a =
          if x.isDigit then digitRunsGo l (some ((a.getD 0) * 10 + digitVal x))
          else match a with
            | some n => n :: digitRunsGo l none
            | none => digitRunsGo l none := fun _ _ => rfl
    rw [List.cons_append, hgo, hgo]
    by_cases hx : x.isDigit = true
    · rw [if_pos hx, if_pos hx, ih]
    · rw [if_neg hx, if_neg hx]
      cases acc with
      | none => exact ih none
      | some n => rw [ih none]

theorem digitRunsGo_ndHead (ys : List Char) (h : ∀ c ∈ ys, c.isDigit = false) :
    ∀ xs : List Char, digitRunsGo (ys ++ xs) none = digitRunsGo xs none := by
  induction ys with
  | nil => intro xs; rfl
  | cons c t ih =>
    intro xs
    have hc : c.isDigit = false := h c (List.mem_cons_self _ _)
    have hgo : ∀ (l : List Char) (a : Option Nat),
        digitRunsGo (c :: l) a =
          if c.isDigit then digitRunsGo l (some ((a.getD 0) * 10 + digitVal c))
          else match a with
            | some n => n :: digitRunsGo l none
            | none => digitRunsGo l none := fun _ _ => rfl
    rw [List.cons_append, hgo, hc]
    simp only [Bool.false_eq_true, if_false]
    exact ih (fun x hx => h x (List.mem_cons_of_mem _ hx)) xs

theorem digitRuns_trimL (cs : List Char) : digitRuns (trimL cs) = digitRuns cs := by
  conv_rhs => rw [← List.takeWhile_append_dropWhile (p := isWS) (l := cs)]
  rw [digitRuns, digitRuns, trimL]
  exact (digitRunsGo_ndHead _
    (fun c hc => not_digit_of_isWS c (List.mem_takeWhile_imp hc)) _).symm

theorem digitRuns_trimR (cs : List Char) : digitRuns (trimR cs) = digitRuns cs := by
  have hdec : trimR cs ++ (List.takeWhile isWS cs.reverse).reverse = cs := by
    rw [trimR, trimL, ← List.reverse_append, List.takeWhile_append_dropWhile,
      List.reverse_reverse]
  conv_rhs => rw [← hdec]
  rw [digitRuns, digitRuns]
  exact (digitRunsGo_append_nd _
    (fun c hc => not_digit_of_isWS c
      (List.mem_takeWhile_imp (List.mem_reverse.mp hc))) _ _).symm

theorem digitRuns_pyStrip (cs : List Char) : digitRuns (pyStrip cs) = digitRuns cs := by
  rw [pyStrip, digitRuns_trimR, digitRuns_trimL]

theorem digitRuns_subREL (cs : List Char) : digitRuns (subREL cs) = digitRuns cs := by
  match cs with
  | [] => rfl
  | [a] => rfl
  | [a, b] => rfl
  | [a, b, c] => rfl
  | r :: e :: l :: s :: rest =>
    have hsub : subREL (r :: e :: l :: s :: rest) =
        if r.toLower = 'r' && e.toLower = 'e' && l.toLower = 'l' &&
            (s = '_' || s = '-') then rest
        else r :: e :: l :: s :: rest := rfl
    rw [hsub]
    by_cases hc : (r.toLower = 'r' && e.toLower = 'e' && l.toLower = 'l' &&
        (s = '_' || s = '-')) = true
    · rw [if_pos hc]
      simp only [Bool.and_eq_true, decide_eq_true_eq, Bool.or_eq_true] at hc
      obtain ⟨⟨⟨hr, he⟩, hl⟩, hs⟩ := hc
      have hprefix : ∀ c ∈ [r, e, l, s], c.isDigit = false := by
        intro c hcm
        fin_cases hcm
        · exact not_digit_of_toLower_eq r 'r' (by decide) hr
        · exact not_digit_of_toLower_eq e 'e' (by decide) he
        · exact not_digit_of_toLower_eq l 'l' (by decide) hl
        · rcases hs with hs | hs <;> rw [hs] <;> decide
      have : digitRuns ([r, e, l, s] ++ rest) = digitRuns rest :=
        digitRunsGo_ndHead [r, e, l, s] hprefix rest
      rw [show r :: e :: l :: s :: rest = [r, e, l, s] ++ rest from rfl, this]
    · rw [if_neg hc]

theorem digitRuns_subVER (cs : List Char) : digitRuns (subVER cs) = digitRuns cs := by
  match cs with
  | [] => rfl
  | [a] => rfl
  | [a, b] => rfl
  | [a, b, c] => rfl
  | v :: e :: r :: s :: rest =>
    have hsub : subVER (v :: e :: r :: s :: rest) =
        if v.toLower = 'v' && e.toLower = 'e' && r.toLower = 'r' &&
            (s = '_' || s = '-') then rest
        else v :: e :: r :: s :: rest := rfl
    rw [hsub]
    by_cases hc : (v.toLower = 'v' && e.toLower = 'e' && r.toLower = 'r' &&
        (s = '_' || s = '-')) = true
    · rw [if_pos hc]
      simp only [Bool.and_eq_true, decide_eq_true_eq, Bool.or_eq_true] at hc
      obtain ⟨⟨⟨hv, he⟩, hr⟩, hs⟩ := hc
      have hprefix : ∀ c ∈ [v, e, r, s], c.isDigit = false := by
        intro c hcm
        fin_cases hcm
        · exact not_digit_of_toLower_eq v 'v' (by decide) hv
        · exact not_digit_of_toLower_eq e 'e' (by decide) he
        · exact not_digit_of_toLower_eq r 'r' (by decide) hr
        · rcases hs with hs | hs <;> rw [hs] <;> decide
      have : digitRuns ([v, e, r, s] ++ rest) = digitRuns rest :=
        digitRunsGo_ndHead [v, e, r, s] hprefix rest
      rw [show v :: e :: r :: s :: rest = [v, e, r, s] ++ rest from rfl, this]
    · rw [if_neg hc]

theorem digitRuns_lstripVV (cs : List Char) :
    digitRuns (lstripVV cs) = digitRuns cs := by
  conv_rhs => rw [← List.takeWhile_append_dropWhile
    (p := fun c => c = 'v' || c = 'V') (l := cs)]
  rw [digitRuns, digitRuns, lstripVV]
  refine (digitRunsGo_ndHead _ (fun c hc => ?_) _).symm
  have := List.mem_takeWhile_imp hc
  simp only [Bool.or_eq_true, decide_eq_true_eq] at this
  rcases this with h | h <;> rw [h] <;> decide

theorem digitRuns_normCore (cs : List Char) :
    digitRuns (normCore cs) = digitRuns cs := by
  rw [normCore, digitRuns_pyStrip, digitRuns, digitRunsGo_map_uCh, ← digitRuns,
    digitRuns_lstripVV, digitRuns_subVER, digitRuns_subREL, digitRuns_pyStrip]

theorem normalize_some_eq (s t : String) (h : normalize_version s none = some t) :
    t.toList = normCore s.toList := by
  unfold normalize_version at h
  by_cases hs : (s == "") = true
  · rw [if_pos hs] at h; cases h
  · rw [if_neg hs] at h
    simp only [normFinish] at h
    by_cases he : (normCore s.toList).isEmpty = true
    · rw [if_pos he] at h; cases h
    · rw [if_neg he] at h
      injection h with h
      rw [← h]
      rfl

theorem digitRuns_normalize (s t : String) (h : normalize_version s none = some t) :
    digitRuns t.toList = digitRuns s.toList := by
  rw [normalize_some_eq s t h, digitRuns_normCore]

theorem listLtNat_irrefl (xs : List Nat) : listLtNat xs xs = false := by
  induction xs with
  | nil => rfl
  | cons a t ih => rw [listLtNat, if_neg (Nat.lt_irrefl a), if_neg (Nat.lt_irrefl a), ih]

theorem natCmp_refl (a : Nat) : natCmp a a = Ordering.eq := by
  rw [natCmp, if_neg (Nat.lt_irrefl a), if_neg (Nat.lt_irrefl a)]

theorem listCmpWith_refl {α : Type} (f : α → α → Ordering)
    (hf : ∀ a, f a a = Ordering.eq) : ∀ l, listCmpWith f l l = Ordering.eq := by
  intro l
  induction l with
  | nil => rfl
  | cons a t ih => rw [listCmpWith, hf, ih]; rfl

theorem lsegCmp_refl (s : LSeg) : lsegCmp s s = Ordering.eq := by
  cases s with
  | num n => exact natCmp_refl n
  | str cs => exact listCmpWith_refl _ (fun c => natCmp_refl c.toNat) cs

theorem keyCmp_refl (k : PepKey) : keyCmp k k = Ordering.eq := by
  rw [keyCmp, natCmp_refl, listCmpWith_refl natCmp natCmp_refl]
  have hpre : preCmp k.pre k.pre = Ordering.eq := by
    cases k.pre with
    | neg => rfl
    | inf => rfl
    | val r n => rw [preCmp, natCmp_refl, natCmp_refl]; rfl
  have hpost : postCmp k.post k.post = Ordering.eq := by
    cases k.post with
    | none => rfl
    | some a => exact natCmp_refl a
  have hdev : devCmp k.dev k.dev = Ordering.eq := by
    cases k.dev with
    | none => rfl
    | some a => exact natCmp_refl a
  have hloc : locCmp k.loc k.loc = Ordering.eq := by
    cases k.loc with
    | none => rfl
    | some l => exact listCmpWith_refl lsegCmp lsegCmp_refl l
  rw [hpre, hpost, hdev, hloc]
  rfl

theorem pepLt_irrefl (k : PepKey) : pepLt k k = false := by
  rw [pepLt, keyCmp_refl]
  rfl

theorem isDigit_ne (c d : Char) (hc : c.isDigit = true) (hd : d.isDigit = false) :
    ¬c = d := by
  intro hcon
  rw [hcon] at hc
  rw [hc] at hd
  cases hd

theorem toLower_eq_v_cases (a : Char) (h : a.toLower = 'v') : a = 'v' ∨ a = 'V' := by
  have hn := congrArg Char.toNat h
  rw [toLower_toNat, show ('v').toNat = 118 from rfl] at hn
  by_cases hr : 65 ≤ a.toNat ∧ a.toNat ≤ 90
  · rw [if_pos hr] at hn
    right
    rw [char_eq_iff_toNat, show ('V').toNat = 86 from rfl]
    omega
  · rw [if_neg hr] at hn
    left
    rw [char_eq_iff_toNat, show ('v').toNat = 118 from rfl]
    exact hn

theorem parseAfterV_nil : parseAfterV [] = none := rfl

theorem parseAfterV_none_of_head (c : Char) (cs : List Char)
    (hc : c.isDigit = false) : parseAfterV (c :: cs) = none := by
  have ht : takeDigits (c :: cs) = ([], c :: cs) := by
    rw [takeDigits, hc]
    simp
  rw [parseAfterV, ht]
  simp only []
  rw [parseFromRelease, ht]

theorem head_dropWhile_not {α : Type} (p : α → Bool) (l : List α) :
    ∀ {c : α} {cs : List α}, List.dropWhile p l = c :: cs → p c = false := by
  induction l with
  | nil => intro c cs h; cases h
  | cons x t ih =>
    intro c cs h
    rw [List.dropWhile_cons] at h
    by_cases hx : p x = true
    · rw [if_pos hx] at h
      exact ih h
    · rw [if_neg hx] at h
      injection h with h1 _
      rw [← h1]
      exact Bool.eq_false_iff.mpr hx

theorem len_dropWhile_le {α : Type} (p : α → Bool) (l : List α) :
    (List.dropWhile p l).length ≤ l.length := by
  induction l with
  | nil => exact Nat.le_refl 0
  | cons x t ih =>
    rw [List.dropWhile_cons]
    by_cases hx : p x = true
    · rw [if_pos hx]
      exact Nat.le_trans ih (Nat.le_succ _)
    · rw [if_neg hx]

theorem trimR_tail (a : Char) (A1 : List Char) (h : trimR (a :: A1) = a :: A1) :
    trimR A1 = A1 := by
  have hrev : List.dropWhile isWS (A1.reverse ++ [a]) = A1.reverse ++ [a] := by
    have h2 := congrArg List.reverse h
    rw [trimR, trimL, List.reverse_cons, List.reverse_reverse] at h2
    rw [h2]
  cases hA : A1.reverse with
  | nil =>
    have : A1 = [] := by
      have := congrArg List.reverse hA
      rwa [List.reverse_reverse] at this
    rw [this]
    rfl
  | cons y ys =>
    rw [hA, List.cons_append, List.dropWhile_cons] at hrev
    by_cases hy : isWS y = true
    · exfalso
      rw [if_pos hy] at hrev
      have hlen := congrArg List.length hrev
      have hle : (List.dropWhile isWS (ys ++ [a])).length ≤ (ys ++ [a]).length :=
        len_dropWhile_le _ _
      rw [hlen] at hle
      simp at hle
    · rw [trimR, trimL, hA, List.dropWhile_cons, if_neg hy]
      rw [← hA, List.reverse_reverse]

theorem trimR_dropWhile (p : Char → Bool) (l : List Char) (h : trimR l = l) :
    trimR (List.dropWhile p l) = List.dropWhile p l := by
  induction l with
  | nil => rfl
  | cons x t ih =>
    rw [List.dropWhile_cons]
    by_cases hx : p x = true
    · rw [if_pos hx]
      exact ih (trimR_tail x t h)
    · rw [if_neg hx]
      exact h

theorem dropV_cons (c : Char) (l : List Char) :
    dropV (c :: l) = if c = 'v' then l else c :: l := rfl

theorem parse_shape (a : Char) (A1 : List Char) (parts : RawParts)
    (hp : parseAfterV (dropV (List.map Char.toLower (a :: A1))) = some parts) :
    ∃ b B1, lstripVV (a :: A1) = b :: B1 ∧ b.isDigit = true ∧
      dropV (List.map Char.toLower (a :: A1)) = List.map Char.toLower (b :: B1) ∧
      subREL (a :: A1) = a :: A1 ∧ subVER (a :: A1) = a :: A1 := by
  rw [List.map_cons, dropV_cons] at hp
  by_cases hav : a.toLower = 'v'
  · rw [if_pos hav] at hp
    cases A1 with
    | nil => rw [List.map_nil, parseAfterV_nil] at hp; cases hp
    | cons b B1 =>
      rw [List.map_cons] at hp
      have hbdl : b.toLower.isDigit = true := by
        cases hx : b.toLower.isDigit with
        | true => rfl
        | false => rw [parseAfterV_none_of_head _ _ hx] at hp; cases hp
      have hbd : b.isDigit = true := by rw [← isDigit_toLower]; exact hbdl
      have hqa : (a = 'v' || a = 'V') = true := by
        rcases toLower_eq_v_cases a hav with h | h <;> rw [h] <;> decide
      have hqb : (b = 'v' || b = 'V') = false := by
        cases hq : (b = 'v' || b = 'V') with
        | false => rfl
        | true =>
          exfalso
          rw [Bool.or_eq_true, decide_eq_true_eq, decide_eq_true_eq] at hq
          rcases hq with h | h
          · exact isDigit_ne b 'v' hbd (by decide) h
          · exact isDigit_ne b 'V' hbd (by decide) h
      refine ⟨b, B1, ?_, hbd, ?_, ?_, ?_⟩
      · simp [lstripVV, List.dropWhile_cons, hqa, hqb]
      · rw [List.map_cons, dropV_cons, if_pos hav, List.map_cons]
      · refine subREL_of_not_r a _ ?_
        intro hcon
        exact absurd (hav.symm.trans hcon) (by decide)
      · refine subVER_of_not_e a b B1 ?_
        intro hcon
        rw [toLower_of_digit b hbd] at hcon
        exact isDigit_ne b 'e' hbd (by decide) hcon
  · rw [if_neg hav] at hp
    have hadl : a.toLower.isDigit = true := by
      cases hx : a.toLower.isDigit with
      | true => rfl
      | false => rw [parseAfterV_none_of_head _ _ hx] at hp; cases hp
    have had : a.isDigit = true := by rw [← isDigit_toLower]; exact hadl
    have hqa : (a = 'v' || a = 'V') = false := by
      cases hq : (a = 'v' || a = 'V') with
      | false => rfl
      | true =>
        exfalso
        rw [Bool.or_eq_true, decide_eq_true_eq, decide_eq_true_eq] at hq
        rcases hq with h | h
        · exact isDigit_ne a 'v' had (by decide) h
        · exact isDigit_ne a 'V' had (by decide) h
    refine ⟨a, A1, ?_, had, ?_, ?_, ?_⟩
    · simp [lstripVV, List.dropWhile_cons, hqa]
    · rw [List.map_cons, dropV_cons, if_neg hav]
    · refine subREL_of_not_r a _ ?_
      intro hcon
      rw [toLower_of_digit a had] at hcon
      exact isDigit_ne a 'r' had (by decide) hcon
    · exact subVER_of_not_v a A1 hav

theorem pep_normalize_preserved (s : String) (k : PepKey)
    (hps : pepParseS s = some k) :
    ∃ t : String, normalize_version s none = some t ∧ pepParseS t = some k := by
  rw [pepParseS] at hps
  obtain ⟨parts, hp, hk⟩ := Option.map_eq_some'.mp hps
  cases hA : pyStrip s.toList with
  | nil =>
    exfalso
    rw [hA] at hp
    rw [show dropV (List.map Char.toLower ([] : List Char)) = [] from rfl,
      parseAfterV_nil] at hp
    cases hp
  | cons a A1 =>
    rw [hA] at hp
    obtain ⟨b, B1, hB, hbd, hL0, hsubR, hsubV⟩ := parse_shape a A1 parts hp
    have htrA : trimR (a :: A1) = a :: A1 := by
      rw [← hA, pyStrip, trimR_trimR]
    have hBtr : trimR (b :: B1) = b :: B1 := by
      rw [← hB, lstripVV]
      exact trimR_dropWhile _ _ htrA
    have hPS2 : pyStrip (List.map uCh (b :: B1)) = List.map uCh (b :: B1) := by
      rw [pyStrip]
      have htl : trimL (List.map uCh (b :: B1)) = List.map uCh (b :: B1) := by
        rw [List.map_cons, digitVal_uCh b hbd, trimL, List.dropWhile_cons,
          isWS_of_digit b hbd]
        simp
      rw [htl, trimR_map_uCh, hBtr]
    have hNC : normCore s.toList = List.map uCh (b :: B1) := by
      rw [normCore, hA, hsubR, hsubV, hB, hPS2]
    have hsne : (s == "") = false := by
      have hdata : s.data ≠ [] := by
        intro hcon
        rw [show s.toList = s.data from rfl, hcon] at hA
        rw [show pyStrip ([] : List Char) = [] from rfl] at hA
        cases hA
      exact mk_beq_empty_false s.data hdata
    have hnv : normalize_version s none =
        some (String.mk (List.map uCh (b :: B1))) := by
      unfold normalize_version
      rw [hsne]
      simp only [Bool.false_eq_true, if_false]
      show normFinish s.toList = _
      rw [normFinish, hNC]
      simp
    refine ⟨String.mk (List.map uCh (b :: B1)), hnv, ?_⟩
    rw [pepParseS]
    rw [show (String.mk (List.map uCh (b :: B1))).toList =
      List.map uCh (b :: B1) from rfl]
    rw [hPS2]
    have hmap : List.map Char.toLower (List.map uCh (b :: B1)) =
        List.map uCh (List.map Char.toLower (b :: B1)) := by
      rw [List.map_map, List.map_map]
      have hf : (Char.toLower ∘ uCh) = (uCh ∘ Char.toLower) := by
        funext c
        exact (uCh_toLower c).symm
      rw [hf]
    rw [hmap]
    have hhead : List.map uCh (List.map Char.toLower (b :: B1)) =
        b :: List.map uCh (List.map Char.toLower B1) := by
      rw [List.map_cons, List.map_cons, toLower_of_digit b hbd, digitVal_uCh b hbd]
    rw [hhead, dropV_cons, if_neg (isDigit_ne b 'v' hbd (by decide))]
    have hp2 : parseAfterV (b :: List.map Char.toLower B1) = some parts := by
      rw [hL0, List.map_cons, toLower_of_digit b hbd] at hp
      exact hp
    have hfin := parseAfterV_map_uCh (b :: List.map Char.toLower B1) parts hp2
    rw [List.map_cons, digitVal_uCh b hbd] at hfin
    rw [hfin, Option.map_some']
    rw [hk]

theorem digitRunsGo_some_ne_nil (cs : List Char) :
    ∀ n, digitRunsGo cs (some n) ≠ [] := by
  induction cs with
  | nil => intro n h; cases h
  | cons c t ih =>
    intro n
    have hgo : digitRunsGo (c :: t) (some n) =
        if c.isDigit then digitRunsGo t (some (n * 10 + digitVal c))
        else n :: digitRunsGo t none := rfl
    rw [hgo]
    by_cases hc : c.isDigit = true
    · rw [if_pos hc]
      exact ih _
    · rw [if_neg hc]
      intro h
      cases h

theorem digitRuns_nil_of_none (cs : List Char)
    (h : cs.any Char.isDigit = false) : digitRuns cs = [] := by
  have hmem : ∀ c ∈ cs, c.isDigit = false := by
    intro c hc
    rw [List.any_eq_false] at h
    have := h c hc
    cases hd : c.isDigit with
    | false => rfl
    | true => exact absurd hd this
  rw [digitRuns, digitRunsGo_nd cs hmem]
  rfl

theorem any_of_digitRuns_ne_nil (cs : List Char) (h : digitRuns cs ≠ []) :
    cs.any Char.isDigit = true := by
  cases ha : cs.any Char.isDigit with
  | true => rfl
  | false => exact absurd (digitRuns_nil_of_none cs ha) h

theorem digitRuns_ne_nil_of_any (cs : List Char)
    (h : cs.any Char.isDigit = true) : digitRuns cs ≠ [] := by
  rw [digitRuns]
  induction cs with
  | nil => cases h
  | cons c t ih =>
    have hgo : digitRunsGo (c :: t) none =
        if c.isDigit then digitRunsGo t (some (digitVal c))
        else digitRunsGo t none := by
      have : digitRunsGo (c :: t) none =
          if c.isDigit then digitRunsGo t (some (0 * 10 + digitVal c))
          else digitRunsGo t none := rfl
      rw [this, Nat.zero_mul, Nat.zero_add]
    rw [hgo]
    by_cases hc : c.isDigit = true
    · rw [if_pos hc]
      exact digitRunsGo_some_ne_nil t _
    · rw [if_neg hc]
      rw [List.any_cons] at h
      cases hcb : c.isDigit with
      | true => exact absurd hcb hc
      | false =>
        rw [hcb, Bool.false_or] at h
        exact ih h

theorem beq_empty_false_of_data_ne (s : String) (h : s.data ≠ []) :
    (s == "") = false :=
  mk_beq_empty_false s.data h

theorem normalize_some_of_hasDigit (s : String) (h : hasDigitS s = true) :
    ∃ t, normalize_version s none = some t ∧ hasDigitS t = true := by
  rw [hasDigitS] at h
  have hruns : digitRuns s.toList ≠ [] := digitRuns_ne_nil_of_any _ h
  have hncr : digitRuns (normCore s.toList) = digitRuns s.toList :=
    digitRuns_normCore _
  have hncne : normCore s.toList ≠ [] := by
    intro hcon
    apply hruns
    rw [← hncr, hcon]
    rfl
  have hdata : s.data ≠ [] := by
    intro hcon
    rw [show s.toList = s.data from rfl, hcon] at h
    cases h
  refine ⟨String.mk (normCore s.toList), ?_, ?_⟩
  · unfold normalize_version
    rw [beq_empty_false_of_data_ne s hdata]
    simp only [Bool.false_eq_true, if_false]
    show normFinish s.toList = _
    rw [normFinish]
    cases hnc : normCore s.toList with
    | nil => exact absurd hnc hncne
    | cons c t => simp
  · show (normCore s.toList).any Char.isDigit = true
    apply any_of_digitRuns_ne_nil
    rw [hncr]
    exact hruns

theorem compare_both (i l : String) (hi : (i == "") = false)
    (hl : (l == "") = false) :
    compare_versions (some i) (some l) =
      match pepParseS i, pepParseS l with
      | some k1, some k2 => if pepLt k1 k2 then "outdated" else "current"
      | _, _ =>
        if listLtNat (split_digits i) (split_digits l) then "outdated"
        else "current" := by
  rw [compare_versions]
  rw [show truthyS (some i) = !(i == "") from rfl,
    show truthyS (some l) = !(l == "") from rfl, hi, hl]
  simp only [Bool.not_false, Bool.not_true, Bool.false_eq_true, if_false]
  rfl

theorem compare_nv2_facts (sv : String) :
    compare_versions (some sv) (nv2 sv) ≠ "outdated" ∧
    (hasDigitS sv = true → compare_versions (some sv) (nv2 sv) = "current") ∧
    (sv = "" → compare_versions (some sv) (nv2 sv) = "not_installed") := by
  by_cases hsv : (sv == "") = true
  · have hni : compare_versions (some sv) (nv2 sv) = "not_installed" := by
      rw [compare_versions, show truthyS (some sv) = !(sv == "") from rfl, hsv]
      rfl
    refine ⟨by rw [hni]; decide, ?_, fun _ => hni⟩
    intro hd
    have hse : sv = "" := eq_of_beq hsv
    rw [hse] at hd
    exact absurd hd (by decide)
  · have hsvf : (sv == "") = false := by
      cases hb : (sv == "") with
      | false => rfl
      | true => exact absurd hb hsv
    have hemp : ¬sv = "" := by
      intro hcon
      apply hsv
      rw [hcon]
      rfl
    have hunknown : nv2 sv = none →
        compare_versions (some sv) (nv2 sv) = "unknown" := by
      intro hn2
      rw [hn2, compare_versions,
        show truthyS (some sv) = !(sv == "") from rfl, hsvf]
      rfl
    cases hn : normalize_version sv none with
    | none =>
      have hn2 : nv2 sv = none := by rw [nv2, hn]; rfl
      refine ⟨by rw [hunknown hn2]; decide, ?_, fun hcon => absurd hcon hemp⟩
      intro hd
      obtain ⟨t, hnt, _⟩ := normalize_some_of_hasDigit sv hd
      rw [hn] at hnt
      cases hnt
    | some t =>
      have hn2 : nv2 sv = normalize_version t none := by rw [nv2, hn]; rfl
      cases hnt : normalize_version t none with
      | none =>
        have hn2n : nv2 sv = none := hn2.trans hnt
        refine ⟨by rw [hunknown hn2n]; decide, ?_, fun hcon => absurd hcon hemp⟩
        intro hd
        obtain ⟨t', hnt', hdt'⟩ := normalize_some_of_hasDigit sv hd
        rw [hn] at hnt'
        injection hnt' with hte
        obtain ⟨t2, hnt2, _⟩ := normalize_some_of_hasDigit t' hdt'
        rw [← hte, hnt] at hnt2
        cases hnt2
      | some t2 =>
        have hn2s : nv2 sv = some t2 := hn2.trans hnt
        have ht2f : (t2 == "") = false := by
          cases hb : (t2 == "") with
          | false => rfl
          | true =>
            exfalso
            have he2 := eq_of_beq hb
            exact normalize_version_ne_some_empty t none (by rw [hnt, he2])
        have hcur : compare_versions (some sv) (nv2 sv) = "current" := by
          rw [hn2s, compare_both sv t2 hsvf ht2f]
          cases hpsv : pepParseS sv with
          | some k =>
            obtain ⟨t', hnt', hpt'⟩ := pep_normalize_preserved sv k hpsv
            rw [hn] at hnt'
            injection hnt' with hte
            rw [← hte] at hpt'
            obtain ⟨t2', hnt2', hpt2'⟩ := pep_normalize_preserved t k hpt'
            rw [hnt] at hnt2'
            injection hnt2' with hte2
            rw [← hte2] at hpt2'
            rw [hpt2']
            show (if pepLt k k then ("outdated" : String) else "current") = "current"
            rw [pepLt_irrefl]
            simp
          | none =>
            have hruns : split_digits t2 = split_digits sv := by
              rw [split_digits, split_digits, digitRuns_normalize t t2 hnt,
                digitRuns_normalize sv t hn]
            cases hpt2 : pepParseS t2 with
            | some k2 =>
              show (if listLtNat (split_digits sv) (split_digits t2)
                then ("outdated" : String) else "current") = "current"
              rw [hruns, listLtNat_irrefl]
              simp
            | none =>
              show (if listLtNat (split_digits sv) (split_digits t2)
                then ("outdated" : String) else "current") = "current"
              rw [hruns, listLtNat_irrefl]
              simp
        exact ⟨by rw [hcur]; decide, fun _ => hcur, fun hcon => absurd hcon hemp⟩

/-- Claim C10: `main` pre-seeds the memoization cache with
`normalize_version(server_version)` under the key `"postgresql"`, so the
`postgresql` row is produced without any fetch of its configured repo
`postgres/postgres` (the fetch log never mentions it); the row's
`latest_version` is derived from `serverVersion` alone (its double
normalization), and for every `serverVersion` and installed mapping the
row's status is never `"outdated"`: it is `"current"` whenever
`serverVersion` contains a digit and `"not_installed"` when
`serverVersion` is empty. -/
theorem c10_postgresql_row (fetch : String → Option String)
    (inst : String → Option String) (sv : String) (f : Nat) :
    ∃ rest cache log,
      reconcile CONFIG fetch inst sv (f + 2) = some (pgRow sv :: rest, cache, log) ∧
      "postgres/postgres" ∉ log ∧
      (pgRow sv).latest_version = (nv2 sv).getD "" ∧
      (pgRow sv).status ≠ "outdated" ∧
      (hasDigitS sv = true → (pgRow sv).status = "current") ∧
      (sv = "" → (pgRow sv).status = "not_installed") := by
  obtain ⟨rest, c, log, hrec, hlog⟩ := reconcile_CONFIG_head fetch inst sv f
  obtain ⟨hno, hcur, hni⟩ := compare_nv2_facts sv
  exact ⟨rest, c, log, hrec, hlog, rfl, hno, hcur, hni⟩

/-- Claim C10 (witness): at server version `"16.2"` (which contains a
digit) the row exists with status `"current"`, and at the empty server
version the status is `"not_installed"`. -/
theorem c10_postgresql_row_witness :
    hasDigitS "16.2" = true ∧
    (∃ rest cache log,
      reconcile CONFIG (fun _ => none) (fun _ => none) "16.2" 2 =
        some (pgRow "16.2" :: rest, cache, log) ∧ "postgres/postgres" ∉ log) ∧
    (pgRow "16.2").status = "current" ∧
    (pgRow "").status = "not_installed" := by
  obtain ⟨rest, c, log, hrec, hlog, hlat, hno, hcur, hni⟩ :=
    c10_postgresql_row (fun _ => none) (fun _ => none) "16.2" 0
  obtain ⟨r2, c2, l2, hrec2, hlog2, hlat2, hno2, hcur2, hni2⟩ :=
    c10_postgresql_row (fun _ => none) (fun _ => none) "" 0
  exact ⟨by decide, ⟨rest, c, log, hrec, hlog⟩, hcur (by decide), hni2 rfl⟩

theorem takeDigits_append (cs : List Char) :
    (takeDigits cs).1 ++ (takeDigits cs).2 = cs := by
  induction cs with
  | nil => rfl
  | cons c t ih =>
    rw [takeDigits]
    by_cases hc : c.isDigit = true
    · rw [if_pos hc]
      simp only [List.cons_append]
      rw [ih]
    · rw [if_neg hc]
      rfl

theorem takeDigits_len (cs : List Char) :
    (takeDigits cs).2.length ≤ cs.length := by
  induction cs with
  | nil => exact Nat.le_refl 0
  | cons c t ih =>
    rw [takeDigits]
    by_cases hc : c.isDigit = true
    · rw [if_pos hc]
      exact Nat.le_trans ih (Nat.le_succ _)
    · rw [if_neg hc]

theorem takeDigits_chars (cs : List Char) :
    ∀ c ∈ (takeDigits cs).1, c.isDigit = true := by
  induction cs with
  | nil => intro c hc; cases hc
  | cons c t ih =>
    by_cases hc : c.isDigit = true
    · rw [takeDigits, if_pos hc]
      intro x hx
      rcases List.mem_cons.mp hx with h | h
      · rw [h]; exact hc
      · exact ih x h
    · rw [takeDigits, if_neg hc]
      intro x hx
      cases hx

theorem takeDigits_shape (cs : List Char) (d : Char) (ds r : List Char)
    (h : takeDigits cs = (d :: ds, r)) :
    ∃ t, cs = d :: t ∧ d.isDigit = true ∧ takeDigits t = (ds, r) := by
  cases cs with
  | nil => cases h
  | cons c t =>
    rw [takeDigits] at h
    by_cases hc : c.isDigit = true
    · rw [if_pos hc] at h
      simp only [Prod.mk.injEq, List.cons.injEq] at h
      obtain ⟨⟨h1, h2⟩, h3⟩ := h
      refine ⟨t, by rw [h1], by rw [← h1]; exact hc, ?_⟩
      rw [← h2, ← h3]
    · rw [if_neg hc] at h
      simp only [Prod.mk.injEq] at h
      cases h.1

theorem digitRunsGo_split (cs : List Char) :
    ∀ n, digitRunsGo cs (some n) =
      ((takeDigits cs).1.foldl (fun m c => m * 10 + digitVal c) n) ::
        digitRuns ((takeDigits cs).2) := by
  induction cs with
  | nil => intro n; rfl
  | cons c t ih =>
    intro n
    have hgo : digitRunsGo (c :: t) (some n) =
        if c.isDigit then digitRunsGo t (some (n * 10 + digitVal c))
        else n :: digitRunsGo t none := rfl
    rw [hgo, takeDigits]
    by_cases hc : c.isDigit = true
    · rw [if_pos hc, if_pos hc]
      simp only [List.foldl_cons]
      exact ih _
    · rw [if_neg hc, if_neg hc]
      simp only [List.foldl_nil]
      have : digitRuns (c :: t) = digitRunsGo t none := by
        rw [digitRuns]
        have hgo2 : digitRunsGo (c :: t) none =
            if c.isDigit then digitRunsGo t (some (0 * 10 + digitVal c))
            else digitRunsGo t none := rfl
        rw [hgo2, if_neg hc]
      rw [this]

theorem digitRuns_split (cs : List Char) (d : Char) (ds r : List Char)
    (h : takeDigits cs = (d :: ds, r)) :
    digitRuns cs = natOfDigits (d :: ds) :: digitRuns r := by
  obtain ⟨t, hcs, hd, ht⟩ := takeDigits_shape cs d ds r h
  rw [hcs, digitRuns]
  have hgo : digitRunsGo (d :: t) none =
      if d.isDigit then digitRunsGo t (some (0 * 10 + digitVal d))
      else digitRunsGo t none := rfl
  rw [hgo, if_pos hd, digitRunsGo_split, ht, natOfDigits]
  simp only [List.foldl_cons]

theorem anyPos_cons (x : Nat) (xs : List Nat) :
    (x :: xs).any (fun b => 0 < b) =
      ((0 < x : Bool) || xs.any (fun b => 0 < b)) := by
  rw [List.any_cons]

theorem stripTZ_nil_iff (ys : List Nat) :
    stripTZ ys = [] ↔ ys.any (fun b => 0 < b) = false := by
  induction ys with
  | nil => exact ⟨fun _ => rfl, fun _ => rfl⟩
  | cons y t ih =>
    rw [stripTZ, anyPos_cons]
    cases hst : stripTZ t with
    | nil =>
      have hta : t.any (fun b => 0 < b) = false := ih.mp hst
      rw [hta, Bool.or_false]
      by_cases hy : y = 0
      · rw [if_pos hy, hy]
        simp
      · rw [if_neg hy]
        constructor
        · intro h; cases h
        · intro h
          exfalso
          rw [decide_eq_false_iff_not] at h
          exact hy (by omega)
    | cons z zs =>
      have hta : ¬t.any (fun b => 0 < b) = false := by
        intro hcon
        rw [ih.mpr hcon] at hst
        cases hst
      constructor
      · intro h; cases h
      · intro h
        exfalso
        rw [Bool.or_eq_false_iff] at h
        exact hta h.2

theorem zero_of_anyPos_false (x : Nat) (xs : List Nat)
    (h : (x :: xs).any (fun b => 0 < b) = false) :
    x = 0 ∧ xs.any (fun b => 0 < b) = false := by
  rw [anyPos_cons, Bool.or_eq_false_iff] at h
  refine ⟨?_, h.2⟩
  have := h.1
  rw [decide_eq_false_iff_not] at this
  omega

theorem padCmp_nil_right (xs : List Nat) :
    padCmp xs [] = if xs.any (fun b => 0 < b) then Ordering.gt else Ordering.eq := by
  induction xs with
  | nil => rfl
  | cons x t ih =>
    rw [padCmp, ih, anyPos_cons]
    by_cases hx : 0 < x
    · rw [if_pos hx]
      have : ((0 < x : Bool) || t.any (fun b => 0 < b)) = true := by
        rw [decide_eq_true hx, Bool.true_or]
      rw [this, if_pos rfl]
    · rw [if_neg hx]
      have hx0 : (0 < x : Bool) = false := decide_eq_false hx
      rw [hx0, Bool.false_or]

theorem padCmp_zz (xs : List Nat) :
    ∀ ys, xs.any (fun b => 0 < b) = false → ys.any (fun b => 0 < b) = false →
      padCmp xs ys = Ordering.eq := by
  induction xs with
  | nil =>
    intro ys _ hy
    rw [padCmp, hy]
    rfl
  | cons x t ih =>
    intro ys hx hy
    obtain ⟨hx0, hxs⟩ := zero_of_anyPos_false x t hx
    cases ys with
    | nil =>
      rw [padCmp_nil_right, hx]
      rfl
    | cons y ys2 =>
      obtain ⟨hy0, hys⟩ := zero_of_anyPos_false y ys2 hy
      rw [padCmp, hx0, hy0, natCmp_refl, ih ys2 hxs hys]
      rfl

theorem padCmp_lt_zero_left (xs : List Nat) :
    ∀ ys, xs.any (fun b => 0 < b) = false → ys.any (fun b => 0 < b) = true →
      padCmp xs ys = Ordering.lt := by
  induction xs with
  | nil =>
    intro ys _ hy
    rw [padCmp, hy]
    rfl
  | cons x t ih =>
    intro ys hx hy
    obtain ⟨hx0, hxs⟩ := zero_of_anyPos_false x t hx
    cases ys with
    | nil => cases hy
    | cons y ys2 =>
      rw [padCmp, hx0]
      rw [anyPos_cons, Bool.or_eq_true] at hy
      by_cases hy0 : 0 < y
      · have : natCmp 0 y = Ordering.lt := by
          rw [natCmp, if_pos hy0]
        rw [this]
        rfl
      · have hyz : y = 0 := by omega
        rw [hyz, natCmp_refl]
        have hys : ys2.any (fun b => 0 < b) = true := by
          rcases hy with h | h
          · exfalso
            rw [decide_eq_true_eq] at h
            exact absurd (hyz ▸ h) (by omega)
          · exact h
        have := ih ys2 hxs hys
        rw [this]
        rfl

theorem padCmp_gt_zero_right (xs : List Nat) :
    ∀ ys, xs.any (fun b => 0 < b) = true → ys.any (fun b => 0 < b) = false →
      padCmp xs ys = Ordering.gt := by
  induction xs with
  | nil => intro ys hx _; cases hx
  | cons x t ih =>
    intro ys hx hy
    cases ys with
    | nil =>
      rw [padCmp_nil_right, hx]
      rfl
    | cons y ys2 =>
      obtain ⟨hy0, hys⟩ := zero_of_anyPos_false y ys2 hy
      rw [padCmp, hy0]
      rw [anyPos_cons, Bool.or_eq_true] at hx
      by_cases hx0 : 0 < x
      · have : natCmp x 0 = Ordering.gt := by
          rw [natCmp, if_neg (Nat.not_lt_zero x), if_pos hx0]
        rw [this]
        rfl
      · have hxz : x = 0 := by omega
        rw [hxz, natCmp_refl]
        have hxs : t.any (fun b => 0 < b) = true := by
          rcases hx with h | h
          · exfalso
            rw [decide_eq_true_eq] at h
            exact absurd (hxz ▸ h) (by omega)
          · exact h
        have := ih ys2 hxs hys
        rw [this]
        rfl

theorem stripTZ_cons (x : Nat) (xs : List Nat) :
    stripTZ (x :: xs) =
      match stripTZ xs with
      | [] => if x = 0 then [] else [x]
      | ys => x :: ys := rfl

theorem listCmpWith_nil_left {α : Type} (f : α → α → Ordering) (ys : List α) :
    listCmpWith f [] ys = if ys.isEmpty then Ordering.eq else Ordering.lt := by
  cases ys with
  | nil => rfl
  | cons y t => rfl

theorem stripTZ_cmp (xs : List Nat) :
    ∀ ys, listCmpWith natCmp (stripTZ xs) (stripTZ ys) = padCmp xs ys := by
  induction xs with
  | nil =>
    intro ys
    show listCmpWith natCmp [] (stripTZ ys) = padCmp [] ys
    rw [listCmpWith_nil_left, padCmp]
    by_cases hy : ys.any (fun b => 0 < b) = true
    · rw [hy, if_pos rfl]
      have hne : ¬stripTZ ys = [] := by
        intro hcon
        rw [(stripTZ_nil_iff ys).mp hcon] at hy
        cases hy
      cases hst : stripTZ ys with
      | nil => exact absurd hst hne
      | cons z zs => rfl
    · have hyf : ys.any (fun b => 0 < b) = false := by
        cases h : ys.any (fun b => 0 < b) with
        | false => rfl
        | true => exact absurd h hy
      rw [hyf, (stripTZ_nil_iff ys).mpr hyf]
      rfl
  | cons a as ih =>
    intro ys
    cases ys with
    | nil =>
      rw [padCmp_nil_right, show stripTZ ([] : List Nat) = [] from rfl]
      by_cases hx : (a :: as).any (fun b => 0 < b) = true
      · rw [hx, if_pos rfl]
        have hne : ¬stripTZ (a :: as) = [] := by
          intro hcon
          rw [(stripTZ_nil_iff _).mp hcon] at hx
          cases hx
        cases hst : stripTZ (a :: as) with
        | nil => exact absurd hst hne
        | cons z zs => rfl
      · have hxf : (a :: as).any (fun b => 0 < b) = false := by
          cases h : (a :: as).any (fun b => 0 < b) with
          | false => rfl
          | true => exact absurd h hx
        rw [hxf, (stripTZ_nil_iff _).mpr hxf]
        rfl
    | cons b bs =>
      rw [padCmp, stripTZ_cons, stripTZ_cons]
      cases hsa : stripTZ as with
      | nil =>
        have has : as.any (fun b => 0 < b) = false := (stripTZ_nil_iff as).mp hsa
        cases hsb : stripTZ bs with
        | nil =>
          have hbs : bs.any (fun b => 0 < b) = false := (stripTZ_nil_iff bs).mp hsb
          have hpad : padCmp as bs = Ordering.eq := padCmp_zz as bs has hbs
          rw [hpad]
          by_cases ha0 : a = 0
          · rw [if_pos ha0]
            by_cases hb0 : b = 0
            · rw [if_pos hb0, ha0, hb0, natCmp_refl]
              rfl
            · rw [if_neg hb0, ha0]
              have : natCmp 0 b = Ordering.lt := by
                rw [natCmp, if_pos (by omega : 0 < b)]
              rw [listCmpWith_nil_left, this]
              rfl
          · rw [if_neg ha0]
            by_cases hb0 : b = 0
            · rw [if_pos hb0, hb0]
              have : natCmp a 0 = Ordering.gt := by
                rw [natCmp, if_neg (Nat.not_lt_zero a), if_pos (by omega : 0 < a)]
              rw [this]
              rfl
            · rw [if_neg hb0]
              show thenC (natCmp a b) (listCmpWith natCmp [] []) =
                thenC (natCmp a b) Ordering.eq
              rfl
        | cons w ws =>
          have hbs : bs.any (fun b => 0 < b) = true := by
            cases h : bs.any (fun b => 0 < b) with
            | true => rfl
            | false =>
              exfalso
              rw [(stripTZ_nil_iff bs).mpr h] at hsb
              cases hsb
          have hpad : padCmp as bs = Ordering.lt := padCmp_lt_zero_left as bs has hbs
          rw [hpad]
          by_cases ha0 : a = 0
          · rw [if_pos ha0, ha0, listCmpWith_nil_left]
            by_cases hb0 : b = 0
            · rw [hb0, natCmp_refl]
              rfl
            · have : natCmp 0 b = Ordering.lt := by
                rw [natCmp, if_pos (by omega : 0 < b)]
              rw [this]
              rfl
          · rw [if_neg ha0]
            show thenC (natCmp a b) (listCmpWith natCmp [] (w :: ws)) =
              thenC (natCmp a b) Ordering.lt
            rfl
      | cons v vs =>
        have has : as.any (fun b => 0 < b) = true := by
          cases h : as.any (fun b => 0 < b) with
          | true => rfl
          | false =>
            exfalso
            rw [(stripTZ_nil_iff as).mpr h] at hsa
            cases hsa
        cases hsb : stripTZ bs with
        | nil =>
          have hbs : bs.any (fun b => 0 < b) = false := (stripTZ_nil_iff bs).mp hsb
          have hpad : padCmp as bs = Ordering.gt := padCmp_gt_zero_right as bs has hbs
          rw [hpad]
          by_cases hb0 : b = 0
          · rw [if_pos hb0, hb0]
            show listCmpWith natCmp (a :: v :: vs) [] = thenC (natCmp a 0) Ordering.gt
            rw [listCmpWith]
            cases hab : natCmp a 0 with
            | lt =>
              exfalso
              rw [natCmp] at hab
              rw [if_neg (Nat.not_lt_zero a)] at hab
              by_cases h0a : 0 < a
              · rw [if_pos h0a] at hab; cases hab
              · rw [if_neg h0a] at hab; cases hab
            | eq => rfl
            | gt => rfl
          · rw [if_neg hb0]
            show thenC (natCmp a b) (listCmpWith natCmp (v :: vs) []) =
              thenC (natCmp a b) Ordering.gt
            rfl
        | cons w ws =>
          show thenC (natCmp a b) (listCmpWith natCmp (v :: vs) (w :: ws)) =
            thenC (natCmp a b) (padCmp as bs)
          rw [← hsa, ← hsb, ih bs]

theorem padLt_eq_padCmp (xs : List Nat) :
    ∀ ys, padLt xs ys = (padCmp xs ys == Ordering.lt) := by
  induction xs with
  | nil =>
    intro ys
    rw [padLt, padCmp]
    by_cases hy : ys.any (fun b => 0 < b) = true
    · rw [hy, if_pos rfl]
      rfl
    · have hyf : ys.any (fun b => 0 < b) = false := by
        cases h : ys.any (fun b => 0 < b) with
        | false => rfl
        | true => exact absurd h hy
      rw [hyf]
      rfl
  | cons a as ih =>
    intro ys
    cases ys with
    | nil =>
      rw [padLt, padCmp_nil_right]
      by_cases hx : (a :: as).any (fun b => 0 < b) = true
      · rw [hx, if_pos rfl]
        rfl
      · have hxf : (a :: as).any (fun b => 0 < b) = false := by
          cases h : (a :: as).any (fun b => 0 < b) with
          | false => rfl
          | true => exact absurd h hx
        rw [hxf]
        rfl
    | cons b bs =>
      rw [padLt, padCmp]
      by_cases hab : a < b
      · rw [if_pos hab]
        have : natCmp a b = Ordering.lt := by rw [natCmp, if_pos hab]
        rw [this]
        rfl
      · rw [if_neg hab]
        by_cases hba : b < a
        · rw [if_pos hba]
          have : natCmp a b = Ordering.gt := by
            rw [natCmp, if_neg hab, if_pos hba]
          rw [this]
          rfl
        · rw [if_neg hba]
          have : natCmp a b = Ordering.eq := by
            rw [natCmp, if_neg hab, if_neg hba]
          rw [this, ih bs]
          rfl

theorem thenC_eq_right (o : Ordering) : thenC o Ordering.eq = o := by
  cases o <;> rfl

theorem map_self_of {α : Type} (f : α → α) (l : List α)
    (h : ∀ c ∈ l, f c = c) : List.map f l = l := by
  induction l with
  | nil => rfl
  | cons x t ih =>
    rw [List.map_cons, h x (List.mem_cons_self _ _),
      ih (fun c hc => h c (List.mem_cons_of_mem _ hc))]

theorem dropWhile_eq_self_of_all {α : Type} (p : α → Bool) (l : List α)
    (h : ∀ c ∈ l, p c = false) : List.dropWhile p l = l := by
  cases l with
  | nil => rfl
  | cons x t =>
    rw [List.dropWhile_cons, h x (List.mem_cons_self _ _)]
    simp

theorem pyStrip_eq_self_of_noWS (cs : List Char)
    (h : ∀ c ∈ cs, isWS c = false) : pyStrip cs = cs := by
  rw [pyStrip, trimL, dropWhile_eq_self_of_all isWS cs h, trimR, trimL,
    dropWhile_eq_self_of_all isWS cs.reverse
      (fun c hc => h c (List.mem_reverse.mp hc)),
    List.reverse_reverse]

theorem dotTail_chars : ∀ (f : Nat) (cs : List Char), dotTailF f cs = true →
    ∀ c ∈ cs, c.isDigit = true ∨ c = '.' := by
  intro f
  induction f with
  | zero =>
    intro cs h c hc
    cases cs with
    | nil => cases hc
    | cons x t => cases h
  | succ n ih =>
    intro cs h c hc
    cases cs with
    | nil => cases hc
    | cons x rest =>
      have hdt : dotTailF (Nat.succ n) (x :: rest) =
          if x = '.' then
            (match takeDigits rest with
              | ([], _) => false
              | (_ :: _, r) => dotTailF n r)
          else false := rfl
      rw [hdt] at h
      by_cases hx : x = '.'
      · rw [if_pos hx] at h
        cases htd : takeDigits rest with
        | mk run r =>
          rw [htd] at h
          cases run with
          | nil => simp only [] at h; cases h
          | cons d ds =>
            simp only [] at h
            rcases List.mem_cons.mp hc with hcx | hcr
            · right; rw [hcx]; exact hx
            · have hrest : rest = (d :: ds) ++ r := by
                have := takeDigits_append rest
                rw [htd] at this
                exact this.symm
              rw [hrest] at hcr
              rcases List.mem_append.mp hcr with hm | hm
              · left
                have := takeDigits_chars rest
                rw [htd] at this
                exact this c hm
              · exact ih r h c hm
      · rw [if_neg hx] at h
        cases h

theorem relLoopF_dotted : ∀ (f : Nat) (cs : List Char), cs.length ≤ f →
    dotTailF f cs = true → relLoopF f cs = (digitRuns cs, []) := by
  intro f
  induction f with
  | zero =>
    intro cs hlen _
    cases cs with
    | nil => rfl
    | cons x t => exact absurd hlen (by simp)
  | succ n ih =>
    intro cs hlen h
    cases cs with
    | nil => rfl
    | cons x rest =>
      have hdt : dotTailF (Nat.succ n) (x :: rest) =
          if x = '.' then
            (match takeDigits rest with
              | ([], _) => false
              | (_ :: _, r) => dotTailF n r)
          else false := rfl
      rw [hdt] at h
      by_cases hx : x = '.'
      · rw [if_pos hx] at h
        cases htd : takeDigits rest with
        | mk run r =>
          rw [htd] at h
          cases run with
          | nil => simp only [] at h; cases h
          | cons d ds =>
            simp only [] at h
            have hrel : relLoopF (Nat.succ n) (x :: rest) =
                if x = '.' then
                  (match takeDigits rest with
                    | ([], _) => ([], x :: rest)
                    | (ds2, r2) =>
                      (natOfDigits ds2 :: (relLoopF n r2).1, (relLoopF n r2).2))
                else ([], x :: rest) := rfl
            rw [hrel, if_pos hx, htd]
            simp only []
            have hrlen : r.length ≤ n := by
              have h1 : rest.length ≤ n := by
                simp only [List.length_cons] at hlen
                omega
              have h2 : (takeDigits rest).2.length ≤ rest.length :=
                takeDigits_len rest
              rw [htd] at h2
              exact Nat.le_trans h2 h1
            rw [ih r hrlen h]
            have hdr : digitRuns (x :: rest) = digitRuns rest := by
              rw [digitRuns]
              have hgo : digitRunsGo (x :: rest) none =
                  if x.isDigit then digitRunsGo rest (some (0 * 10 + digitVal x))
                  else digitRunsGo rest none := rfl
              rw [hgo, hx]
              simp only [show ('.').isDigit = false from rfl, Bool.false_eq_true,
                if_false]
              rfl
            rw [hdr, digitRuns_split rest d ds r htd]
      · rw [if_neg hx] at h
        cases h

theorem pepParse_dotted (s : String) (h : dottedB s = true) :
    pepParseS s = some
      { epoch := 0, release := stripTZ (digitRuns s.toList), pre := PreF.inf,
        post := none, dev := none, loc := none } := by
  rw [dottedB] at h
  cases htd : takeDigits s.toList with
  | mk run r =>
    rw [htd] at h
    cases run with
    | nil => simp only [] at h; cases h
    | cons d ds =>
      simp only [] at h
      have happ : (d :: ds) ++ r = s.toList := by
        have := takeDigits_append s.toList
        rw [htd] at this
        exact this
      have hdchars := takeDigits_chars s.toList
      rw [htd] at hdchars
      have hd : d.isDigit = true := hdchars d (List.mem_cons_self _ _)
      have hchars : ∀ c ∈ s.toList, c.isDigit = true ∨ c = '.' := by
        intro c hc
        rw [← happ] at hc
        rcases List.mem_append.mp hc with hm | hm
        · left; exact hdchars c hm
        · exact dotTail_chars r.length r h c hm
      have hnoWS : ∀ c ∈ s.toList, isWS c = false := by
        intro c hc
        rcases hchars c hc with hcd | hcd
        · exact isWS_of_digit c hcd
        · rw [hcd]; rfl
      have hlow : List.map Char.toLower s.toList = s.toList := by
        apply map_self_of
        intro c hc
        rcases hchars c hc with hcd | hcd
        · exact toLower_of_digit c hcd
        · rw [hcd]; rfl
      have hdv : dropV s.toList = s.toList := by
        rw [← happ, List.cons_append, dropV_cons,
          if_neg (isDigit_ne d 'v' hd (by decide))]
      rw [pepParseS, pyStrip_eq_self_of_noWS s.toList hnoWS, hlow, hdv]
      have hec : parseAfterV s.toList = parseFromRelease 0 s.toList := by
        rw [parseAfterV, htd]
        cases r with
        | nil => rfl
        | cons x r2 =>
          have hx : x = '.' := by
            have hdt : dotTailF (x :: r2).length (x :: r2) =
                if x = '.' then
                  (match takeDigits r2 with
                    | ([], _) => false
                    | (_ :: _, r3) => dotTailF (x :: r2).length.pred r3)
                else false := rfl
            by_cases hxx : x = '.'
            · exact hxx
            · exfalso
              rw [hdt, if_neg hxx] at h
              cases h
          show parseFromRelease
            (if x = '!' then (natOfDigits (d :: ds), r2) else ((0 : Nat), s.toList)).1
            (if x = '!' then (natOfDigits (d :: ds), r2)
              else ((0 : Nat), s.toList)).2 = parseFromRelease 0 s.toList
          rw [if_neg (show ¬x = '!' by rw [hx]; decide)]
      rw [hec, parseFromRelease, htd]
      simp only []
      rw [relLoopF_dotted r.length r (Nat.le_refl _) h]
      simp only []
      rw [show parsePre [] = (none, []) from rfl]
      simp only []
      rw [show parsePost [] = (none, []) from rfl]
      simp only []
      rw [show parseDev [] = (none, []) from rfl]
      simp only []
      rw [show parseLoc [] = (none, []) from rfl]
      simp only [List.isEmpty_nil, if_true]
      rw [digitRuns_split s.toList d ds r htd]
      rfl

theorem dotted_data_ne (s : String) (h : dottedB s = true) : s.data ≠ [] := by
  intro hcon
  rw [dottedB, show s.toList = s.data from rfl, hcon] at h
  cases h

theorem pepLt_dottedKey (A B : List Nat) :
    pepLt (dottedKey A) (dottedKey B) = padLt A B := by
  rw [pepLt]
  have hkc : keyCmp (dottedKey A) (dottedKey B) =
      thenC (listCmpWith natCmp (stripTZ A) (stripTZ B)) Ordering.eq := rfl
  rw [hkc, thenC_eq_right, stripTZ_cmp, padLt_eq_padCmp]

theorem compare_dotted_eq_claim (i l : String) (hi : dottedB i = true)
    (hl : dottedB l = true) :
    compare_versions (some i) (some l) = claimCompare (some i) (some l) := by
  have hif : (i == "") = false :=
    beq_empty_false_of_data_ne i (dotted_data_ne i hi)
  have hlf : (l == "") = false :=
    beq_empty_false_of_data_ne l (dotted_data_ne l hl)
  have hti : truthyS (some i) = true := by
    rw [show truthyS (some i) = !(i == "") from rfl, hif]
    rfl
  have htl : truthyS (some l) = true := by
    rw [show truthyS (some l) = !(l == "") from rfl, hlf]
    rfl
  have hpi : pepParseS i = some (dottedKey (digitRuns i.toList)) :=
    pepParse_dotted i hi
  have hpl : pepParseS l = some (dottedKey (digitRuns l.toList)) :=
    pepParse_dotted l hl
  rw [compare_both i l hif hlf, hpi, hpl]
  show (if pepLt (dottedKey (digitRuns i.toList)) (dottedKey (digitRuns l.toList)) =
      true then ("outdated" : String) else "current") = claimCompare (some i) (some l)
  rw [pepLt_dottedKey]
  rw [claimCompare, hti, htl]
  simp only [Bool.not_true, Bool.false_eq_true, if_false]
  rfl

/-- Claim C2 (counterexample): the claim's zero-padded digit-run
comparison does not describe the code when a string is not PEP 440
parseable: `compare_versions "1.2.x" "1.2.0"` falls back to unpadded
Python list comparison and yields `"outdated"` (`[1,2] < [1,2,0]`),
while padding missing trailing components with zeros would compare
`[1,2,0]` with `[1,2,0]` and yield `"current"`. -/
theorem c2_counterexample :
    compare_versions (some "1.2.x") (some "1.2.0") = "outdated" ∧
    claimCompare (some "1.2.x") (some "1.2.0") = "current" := by
  constructor
  · decide
  · decide

/-- Claim C2 (amended): absent installed gives `not_installed` and a
present installed with absent latest gives `unknown` as claimed, and
`compare_versions "1.2.0" "1.10.0" = "outdated"` (numeric, not
lexicographic); but with both present the code first compares PEP 440
keys and only falls back to UNPADDED digit-run list comparison when a
string does not parse.  On plain dotted numeric strings the code does
agree with the claim's zero-padded componentwise comparison. -/
theorem c2_compare_amended :
    (∀ l, compare_versions none l = "not_installed") ∧
    (∀ i, (i == "") = false → compare_versions (some i) none = "unknown") ∧
    compare_versions (some "1.2.0") (some "1.10.0") = "outdated" ∧
    (∀ i l, dottedB i = true → dottedB l = true →
      compare_versions (some i) (some l) = claimCompare (some i) (some l)) := by
  refine ⟨fun l => rfl, ?_, by decide, compare_dotted_eq_claim⟩
  intro i hi
  rw [compare_versions, show truthyS (some i) = !(i == "") from rfl, hi]
  rfl

/-- Claim C2 (witness): the amended theorem's hypotheses discharged at
concrete inputs. -/
theorem c2_compare_amended_witness :
    compare_versions none (some "1.0.0") = "not_installed" ∧
    (("1.0.0" == "") = false ∧ compare_versions (some "1.0.0") none = "unknown") ∧
    (dottedB "1.2.0" = true ∧ dottedB "1.10.0" = true ∧
      compare_versions (some "1.2.0") (some "1.10.0") =
        claimCompare (some "1.2.0") (some "1.10.0")) := by
  obtain ⟨h1, h2, h3, h4⟩ := c2_compare_amended
  exact ⟨h1 (some "1.0.0"), ⟨by decide, h2 "1.0.0" (by decide)⟩,
    ⟨by decide, by decide, h4 "1.2.0" "1.10.0" (by decide) (by decide)⟩⟩
